import Mathlib

/-
  Verification development for the Fouserbot repository (src/Fouserbot.py).

  The bot's conversation-orchestration core is shallowly embedded here:
  text is `List Char`, the remote store is an explicit `Store` record, and
  each Python function of the `FouserBot` class that the claims mention is
  translated into a pure Lean function.  Library behaviour that the source
  calls into is modelled as follows:

  * `re.search(r'\[USER_DATA_JSON\]\s*(\{.*?\})', text, re.DOTALL)` —
    leftmost-match semantics: the pattern can only start at an occurrence of
    the literal marker; after the marker the whitespace run is skipped, the
    next character must be an opening brace and the lazy `.*?` makes the
    capture end at the first closing brace (`regex_user_json`).
  * `re.search(r'consult a doctor.*', text, re.IGNORECASE | re.DOTALL)` —
    the suffix starting at the first case-insensitive occurrence of the
    trigger phrase (`findCI`).
  * `str.replace(old, "")` — left-to-right non-overlapping removal
    (`replaceAll`); `str.strip()` — whitespace trimmed at both ends
    (`strip`); `"x" in s` — substring test (`hasSub`).
  * `json.dumps` / `json.loads` — modelled for flat JSON objects whose
    values are escape-free strings or integer literals (`jdumps`,
    `json_loads`); this is the fragment the profile grammar uses.
  * The Supabase tables `users`, `plan_history`, `conversation_history` —
    lists inside `Store`; `upsert` keyed on `user_id`, the
    `update ... eq(user_id) ... is_(end_date, None)` plan-closing call, the
    `insert`, and the `order(start_date, desc).limit(1)` active-plan lookup
    are each translated directly.
-/

set_option maxHeartbeats 1000000

namespace Fouserbot

/-- Whitespace as used by Python's `str.strip` and the regex class `\s`
(ASCII fragment). -/
def isPySpace (c : Char) : Bool :=
  c == ' ' || c == '\t' || c == '\n' || c == '\r' || c == '\x0b' || c == '\x0c'

/-- ASCII lower-casing, modelling `re.IGNORECASE` matching of the
all-lowercase pattern `consult a doctor`. -/
def lower (c : Char) : Char :=
  if 'A' ≤ c ∧ c ≤ 'Z' then Char.ofNat (c.toNat + 32) else c

/-- Split a text at the first occurrence of `pat`: returns the part before
the occurrence and the part after it. -/
def splitFirstSub (pat : List Char) : List Char → Option (List Char × List Char)
  | [] => none
  | c :: cs =>
    if pat.isPrefixOf (c :: cs) then some ([], (c :: cs).drop pat.length)
    else
      match splitFirstSub pat cs with
      | some (b, a) => some (c :: b, a)
      | none => none

/-- Python's substring test `pat in text`. -/
def hasSub (pat text : List Char) : Bool :=
  (splitFirstSub pat text).isSome

/-- Fuel-driven worker for `replaceAll`; the fuel only bounds the scan
depth and is irrelevant once it reaches the text length
(`replaceAllF_mono`). -/
def replaceAllF (pat rep : List Char) : Nat → List Char → List Char
  | _, [] => []
  | 0, l => l
  | fuel + 1, c :: cs =>
    if pat ≠ [] ∧ pat.isPrefixOf (c :: cs) then
      rep ++ replaceAllF pat rep fuel ((c :: cs).drop pat.length)
    else
      c :: replaceAllF pat rep fuel cs

/-- Python's `text.replace(pat, rep)`: left-to-right, non-overlapping. -/
def replaceAll (pat rep l : List Char) : List Char :=
  replaceAllF pat rep l.length l

theorem replaceAllF_mono (pat rep : List Char) :
    ∀ f g l, l.length ≤ f → l.length ≤ g →
      replaceAllF pat rep f l = replaceAllF pat rep g l := by
  intro f
  induction f with
  | zero =>
    intro g l hf _
    have hl : l = [] := List.length_eq_zero.mp (Nat.le_zero.mp hf)
    subst hl
    cases g <;> rfl
  | succ f ih =>
    intro g l hf hg
    cases l with
    | nil => cases g <;> rfl
    | cons c cs =>
      cases g with
      | zero => simp at hg
      | succ g' =>
        simp only [replaceAllF]
        simp only [List.length_cons] at hf hg
        by_cases hP : pat ≠ [] ∧ pat.isPrefixOf (c :: cs)
        · rw [if_pos hP, if_pos hP]
          congr 1
          have hlp : 0 < pat.length := List.length_pos.mpr hP.1
          have hdl : ((c :: cs).drop pat.length).length ≤ cs.length := by
            simp only [List.length_drop, List.length_cons]
            omega
          exact ih g' _ (by omega) (by omega)
        · rw [if_neg hP, if_neg hP]
          congr 1
          exact ih g' cs (by omega) (by omega)

/-- One-step unfolding of `replaceAll` on a cons cell. -/
theorem replaceAll_cons (pat rep : List Char) (c : Char) (cs : List Char) :
    replaceAll pat rep (c :: cs) =
      if pat ≠ [] ∧ pat.isPrefixOf (c :: cs) then
        rep ++ replaceAll pat rep ((c :: cs).drop pat.length)
      else
        c :: replaceAll pat rep cs := by
  unfold replaceAll
  simp only [List.length_cons]
  simp only [replaceAllF]
  by_cases hP : pat ≠ [] ∧ pat.isPrefixOf (c :: cs)
  · rw [if_pos hP, if_pos hP]
    congr 1
    have hlp : 0 < pat.length := List.length_pos.mpr hP.1
    exact replaceAllF_mono pat rep cs.length _ _
      (by simp only [List.length_drop, List.length_cons]; omega) (le_refl _)
  · rw [if_neg hP, if_neg hP]

theorem replaceAll_nil (pat rep : List Char) : replaceAll pat rep [] = [] := rfl

/-- Take characters up to and including the first occurrence of `c`. -/
def takeThrough (c : Char) : List Char → List Char
  | [] => []
  | x :: xs => if x = c then [x] else x :: takeThrough c xs

/-- Leading-whitespace removal (`str.lstrip`). -/
def stripLeft (l : List Char) : List Char := l.dropWhile isPySpace

/-- Python's `str.strip()`. -/
def strip (l : List Char) : List Char :=
  ((stripLeft l).reverse.dropWhile isPySpace).reverse

/-- Suffix of the text starting at the first case-insensitive occurrence of
the (all-lowercase) pattern: `re.search(pat + '.*', text, I|S).group(0)`. -/
def findCI (pat : List Char) : List Char → Option (List Char)
  | [] => none
  | c :: cs =>
    if pat.isPrefixOf ((c :: cs).map lower) then some (c :: cs)
    else findCI pat cs

/-- JSON values of the fragment the profile grammar uses: escape-free
strings and integer literals (kept as their digit characters). -/
inductive JVal where
  | jstr : List Char → JVal
  | jnum : List Char → JVal
deriving DecidableEq

/-- A JSON object as an ordered key/value list (a Python dict). -/
abbrev JObj := List (List Char × JVal)

/-- Serialisation of one value, as `json.dumps` renders it. -/
def valDump : JVal → List Char
  | .jstr s => '"' :: s ++ ['"']
  | .jnum d => d

/-- Serialisation of one `"key": value` member. -/
def pairDump (kv : List Char × JVal) : List Char :=
  '"' :: kv.1 ++ '"' :: ':' :: ' ' :: valDump kv.2

/-- The members of an object joined by `json.dumps`'s default `", "`. -/
def membersDump : JObj → List Char
  | [] => []
  | [kv] => pairDump kv
  | kv :: rest => pairDump kv ++ ',' :: ' ' :: membersDump rest

/-- `json.dumps` on an object of the modelled fragment. -/
def jdumps (p : JObj) : List Char :=
  '\x7b' :: membersDump p ++ ['\x7d']

/-- Characters allowed in modelled string keys/values: printable ASCII
without quote, backslash, closing brace or opening bracket.  On this
fragment `jdumps` agrees with Python's `json.dumps` (which would otherwise
escape) and the marker regex capture cannot be cut short. -/
def plainChar (c : Char) : Bool :=
  32 ≤ c.toNat && c.toNat ≤ 126 && c ≠ '"' && c ≠ '\\' && c ≠ '\x7d' && c ≠ '['

/-- All characters of a string are plain. -/
def plainStr (s : List Char) : Bool := s.all plainChar

/-- An integer literal: optional minus sign followed by digits. -/
def numStr (d : List Char) : Bool :=
  match d with
  | '-' :: t => !t.isEmpty && t.all (fun c => c.isDigit)
  | t => !t.isEmpty && t.all (fun c => c.isDigit)

/-- A value of the modelled JSON fragment. -/
def validVal : JVal → Bool
  | .jstr s => plainStr s
  | .jnum d => numStr d

/-- A profile object of the modelled JSON fragment. -/
def validProfile (p : JObj) : Bool :=
  p.all fun kv => plainStr kv.1 && validVal kv.2

/-- `json.loads` whitespace skipping. -/
def skipWs (l : List Char) : List Char := l.dropWhile isPySpace

/-- Parse a string body after the opening quote; returns the content and
the rest after the closing quote.  Escapes are outside the modelled
fragment and fail. -/
def parseStr : List Char → Option (List Char × List Char)
  | [] => none
  | c :: cs =>
    if c = '"' then some ([], cs)
    else if c = '\\' then none
    else
      match parseStr cs with
      | some (s, r) => some (c :: s, r)
      | none => none

/-- Parse a non-empty digit run; returns it and the rest. -/
def digitsRest (ls : List Char) : Option (List Char × List Char) :=
  let ds := ls.takeWhile fun c => c.isDigit
  if ds.isEmpty then none else some (ds, ls.drop ds.length)

/-- Parse an integer literal; returns its characters and the rest. -/
def parseNum : List Char → Option (List Char × List Char)
  | '-' :: ls =>
    match digitsRest ls with
    | some (ds, r) => some ('-' :: ds, r)
    | none => none
  | ls => digitsRest ls

/-- Parse a value of the modelled fragment. -/
def parseVal (l : List Char) : Option (JVal × List Char) :=
  match l with
  | '"' :: cs =>
    match parseStr cs with
    | some (s, r) => some (.jstr s, r)
    | none => none
  | _ =>
    match parseNum l with
    | some (d, r) => some (.jnum d, r)
    | none => none

theorem parseStr_rest_lt :
    ∀ l s r, parseStr l = some (s, r) → r.length < l.length := by
  intro l
  induction l with
  | nil => intro s r h; simp [parseStr] at h
  | cons c cs ih =>
    intro s r h
    simp only [parseStr] at h
    split at h
    next =>
      injection h with h'
      injection h' with h1 h2
      rw [← h2]
      simp
    next =>
      split at h
      next => simp at h
      next =>
        split at h
        next s0 r0 hps =>
          injection h with h'
          injection h' with h1 h2
          have := ih s0 r0 hps
          rw [← h2]
          simp only [List.length_cons]
          omega
        next hps => simp at h

theorem digitsRest_rest_lt :
    ∀ l d r, digitsRest l = some (d, r) → r.length < l.length := by
  intro l d r h
  simp only [digitsRest] at h
  split at h
  next he => simp at h
  next he =>
    injection h with h'
    injection h' with h1 h2
    have hne : l.takeWhile (fun c => c.isDigit) ≠ [] := by
      intro hnil
      rw [hnil] at he
      simp at he
    have hlen : (l.takeWhile (fun c => c.isDigit)).length ≤ l.length :=
      List.Sublist.length_le (List.takeWhile_sublist _)
    have hpos : 0 < (l.takeWhile (fun c => c.isDigit)).length :=
      List.length_pos.mpr hne
    rw [← h2]
    simp only [List.length_drop]
    omega

theorem parseNum_rest_lt :
    ∀ l d r, parseNum l = some (d, r) → r.length < l.length := by
  intro l d r h
  unfold parseNum at h
  split at h
  next ls =>
    split at h
    next d0 r0 hdr =>
      injection h with h'
      injection h' with h1 h2
      have := digitsRest_rest_lt ls d0 r0 hdr
      rw [← h2]
      simp only [List.length_cons]
      omega
    next => simp at h
  next ls hne =>
    exact digitsRest_rest_lt _ d r h

theorem parseVal_rest_lt :
    ∀ l v r, parseVal l = some (v, r) → r.length < l.length := by
  intro l v r h
  unfold parseVal at h
  split at h
  next cs =>
    cases hps : parseStr cs with
    | none => rw [hps] at h; simp at h
    | some pr =>
      rw [hps] at h
      simp at h
      have := parseStr_rest_lt cs pr.1 pr.2 (by rw [hps])
      cases pr
      simp at h this
      rw [← h.2]
      simp [List.length_cons]
      omega
  next hne =>
    cases hpn : parseNum l with
    | none => rw [hpn] at h; simp at h
    | some pr =>
      rw [hpn] at h
      simp at h
      have := parseNum_rest_lt l pr.1 pr.2 (by rw [hpn])
      cases pr
      simp at h this
      rw [← h.2]
      exact this

theorem skipWs_length_le (l : List Char) : (skipWs l).length ≤ l.length :=
  List.Sublist.length_le (List.dropWhile_sublist _)

/-- Fuel-driven worker for `parseMembers`: parse the member list of a
non-empty object, starting at the opening quote of the first key; returns
the members and the rest after the closing brace.  The fuel only bounds
the recursion depth and is irrelevant once it reaches the input length
(`parseMembersF_mono`). -/
def parseMembersF : Nat → List Char → Option (JObj × List Char)
  | 0, _ => none
  | fuel + 1, l =>
    match l with
    | [] => none
    | c :: cs =>
      if c = '"' then
        match parseStr cs with
        | none => none
        | some (k, r1) =>
          match skipWs r1 with
          | [] => none
          | c2 :: r3 =>
            if c2 = ':' then
              match parseVal (skipWs r3) with
              | none => none
              | some (v, r4) =>
                match skipWs r4 with
                | [] => none
                | c3 :: r6 =>
                  if c3 = ',' then
                    match parseMembersF fuel (skipWs r6) with
                    | some (o, rest) => some ((k, v) :: o, rest)
                    | none => none
                  else if c3 = '\x7d' then some ([(k, v)], r6)
                  else none
            else none
      else none

/-- Parse the member list of a non-empty object. -/
def parseMembers (l : List Char) : Option (JObj × List Char) :=
  parseMembersF l.length l

theorem parseMembersF_mono :
    ∀ f g l, l.length ≤ f → l.length ≤ g → parseMembersF f l = parseMembersF g l := by
  intro f
  induction f with
  | zero =>
    intro g l hf _
    have hl : l = [] := List.length_eq_zero.mp (Nat.le_zero.mp hf)
    subst hl
    cases g <;> rfl
  | succ f ih =>
    intro g l hf hg
    cases l with
    | nil => cases g <;> rfl
    | cons c cs =>
      cases g with
      | zero => simp at hg
      | succ g' =>
        simp only [parseMembersF]
        by_cases hc : c = '"'
        · rw [if_pos hc, if_pos hc]
          cases h1 : parseStr cs with
          | none => rfl
          | some kr =>
            obtain ⟨k, r1⟩ := kr
            dsimp only
            cases h2 : skipWs r1 with
            | nil => rfl
            | cons c2 r3 =>
              dsimp only
              by_cases hc2 : c2 = ':'
              · rw [if_pos hc2, if_pos hc2]
                cases h3 : parseVal (skipWs r3) with
                | none => rfl
                | some vr =>
                  obtain ⟨v, r4⟩ := vr
                  dsimp only
                  cases h4 : skipWs r4 with
                  | nil => rfl
                  | cons c3 r6 =>
                    dsimp only
                    by_cases hc3 : c3 = ','
                    · rw [if_pos hc3, if_pos hc3]
                      have hlt : (skipWs r6).length < (c :: cs).length := by
                        have e1 : r1.length < cs.length := parseStr_rest_lt cs k r1 h1
                        have e2 : r3.length < (skipWs r1).length := by rw [h2]; simp
                        have e3 : (skipWs r1).length ≤ r1.length := skipWs_length_le r1
                        have e4 : r4.length < (skipWs r3).length :=
                          parseVal_rest_lt (skipWs r3) v r4 h3
                        have e5 : (skipWs r3).length ≤ r3.length := skipWs_length_le r3
                        have e6 : r6.length < (skipWs r4).length := by rw [h4]; simp
                        have e7 : (skipWs r4).length ≤ r4.length := skipWs_length_le r4
                        have e8 : (skipWs r6).length ≤ r6.length := skipWs_length_le r6
                        simp only [List.length_cons]
                        omega
                      simp only [List.length_cons] at hf hg hlt
                      rw [ih g' (skipWs r6) (by omega) (by omega)]
                    · rw [if_neg hc3, if_neg hc3]
              · rw [if_neg hc2, if_neg hc2]
        · rw [if_neg hc, if_neg hc]

/-- One-step unfolding of `parseMembers`. -/
theorem parseMembers_eq (l : List Char) :
    parseMembers l =
      match l with
      | [] => none
      | c :: cs =>
        if c = '"' then
          match parseStr cs with
          | none => none
          | some (k, r1) =>
            match skipWs r1 with
            | [] => none
            | c2 :: r3 =>
              if c2 = ':' then
                match parseVal (skipWs r3) with
                | none => none
                | some (v, r4) =>
                  match skipWs r4 with
                  | [] => none
                  | c3 :: r6 =>
                    if c3 = ',' then
                      match parseMembers (skipWs r6) with
                      | some (o, rest) => some ((k, v) :: o, rest)
                      | none => none
                    else if c3 = '\x7d' then some ([(k, v)], r6)
                    else none
              else none
        else none := by
  unfold parseMembers
  cases l with
  | nil => rfl
  | cons c cs =>
    simp only [List.length_cons, parseMembersF]
    by_cases hc : c = '"'
    · rw [if_pos hc, if_pos hc]
      cases h1 : parseStr cs with
      | none => rfl
      | some kr =>
        obtain ⟨k, r1⟩ := kr
        dsimp only
        cases h2 : skipWs r1 with
        | nil => rfl
        | cons c2 r3 =>
          dsimp only
          by_cases hc2 : c2 = ':'
          · rw [if_pos hc2, if_pos hc2]
            cases h3 : parseVal (skipWs r3) with
            | none => rfl
            | some vr =>
              obtain ⟨v, r4⟩ := vr
              dsimp only
              cases h4 : skipWs r4 with
              | nil => rfl
              | cons c3 r6 =>
                dsimp only
                by_cases hc3 : c3 = ','
                · rw [if_pos hc3, if_pos hc3]
                  have hlt : (skipWs r6).length < (c :: cs).length := by
                    have e1 : r1.length < cs.length := parseStr_rest_lt cs k r1 h1
                    have e2 : r3.length < (skipWs r1).length := by rw [h2]; simp
                    have e3 : (skipWs r1).length ≤ r1.length := skipWs_length_le r1
                    have e4 : r4.length < (skipWs r3).length :=
                      parseVal_rest_lt (skipWs r3) v r4 h3
                    have e5 : (skipWs r3).length ≤ r3.length := skipWs_length_le r3
                    have e6 : r6.length < (skipWs r4).length := by rw [h4]; simp
                    have e7 : (skipWs r4).length ≤ r4.length := skipWs_length_le r4
                    have e8 : (skipWs r6).length ≤ r6.length := skipWs_length_le r6
                    simp only [List.length_cons]
                    omega
                  simp only [List.length_cons] at hlt
                  rw [parseMembersF_mono cs.length (skipWs r6).length (skipWs r6)
                    (by omega) (le_refl _)]
                · rw [if_neg hc3, if_neg hc3]
          · rw [if_neg hc2, if_neg hc2]
    · rw [if_neg hc, if_neg hc]
/-- `json.loads` on the modelled fragment: an object document with
optional surrounding whitespace; anything else fails (recovered by the
caller). -/
def json_loads (s : List Char) : Option JObj :=
  match skipWs s with
  | [] => none
  | c :: r =>
    if c = '\x7b' then
      match skipWs r with
      | [] => none
      | c2 :: r2 =>
        if c2 = '\x7d' then if (skipWs r2).isEmpty then some [] else none
        else
          match parseMembers (c2 :: r2) with
          | some (o, rest) => if (skipWs rest).isEmpty then some o else none
          | none => none
    else none

/-- The literal profile-block marker. -/
def userMarker : List Char := "[USER_DATA_JSON]".data

/-- The literal completion marker. -/
def endMarker : List Char := "[END_OF_PLAN]".data

/-- The disclaimer trigger phrase of the two `consult a doctor` regexes. -/
def trigger : List Char := "consult a doctor".data

theorem splitFirstSub_rest_lt (pat : List Char) (hp : pat ≠ []) :
    ∀ l pre rest, splitFirstSub pat l = some (pre, rest) → rest.length < l.length := by
  intro l
  induction l with
  | nil => intro pre rest h; simp [splitFirstSub] at h
  | cons c cs ih =>
    intro pre rest h
    simp only [splitFirstSub] at h
    split at h
    next hpre =>
      injection h with h'
      injection h' with h1 h2
      have hlp : 0 < pat.length := List.length_pos.mpr hp
      rw [← h2]
      simp only [List.length_drop, List.length_cons]
      omega
    next hpre =>
      split at h
      next b a hss =>
        injection h with h'
        injection h' with h1 h2
        have := ih b a hss
        rw [← h2]
        simp only [List.length_cons]
        omega
      next hss => simp at h

/-- Fuel-driven worker for the profile-block regex
`re.search(r'\[USER_DATA_JSON\]\s*(\{.*?\})', text, re.DOTALL)`:
returns `(group(0), group(1))` of the leftmost match, trying each marker
occurrence in turn as `re.search` does.  The fuel only bounds the number
of marker occurrences tried and is irrelevant once it reaches the text
length (`regexUJF_mono`). -/
def regexUJF : Nat → List Char → Option (List Char × List Char)
  | 0, _ => none
  | fuel + 1, text =>
    match splitFirstSub userMarker text with
    | none => none
    | some (_, rest) =>
      match rest.dropWhile isPySpace with
      | [] => regexUJF fuel rest
      | d :: tail =>
        if d = '\x7b' then
          if tail.contains '\x7d' then
            some (userMarker ++ rest.takeWhile isPySpace ++ d :: takeThrough '\x7d' tail,
              d :: takeThrough '\x7d' tail)
          else regexUJF fuel rest
        else regexUJF fuel rest

/-- The profile-block regex search, `(group(0), group(1))` of the
leftmost match. -/
def regex_user_json (text : List Char) : Option (List Char × List Char) :=
  regexUJF text.length text

theorem regexUJF_mono :
    ∀ f g text, text.length ≤ f → text.length ≤ g → regexUJF f text = regexUJF g text := by
  intro f
  induction f with
  | zero =>
    intro g text hf _
    have ht : text = [] := List.length_eq_zero.mp (Nat.le_zero.mp hf)
    subst ht
    cases g <;> rfl
  | succ f ih =>
    intro g text hf hg
    cases g with
    | zero =>
      have ht : text = [] := List.length_eq_zero.mp (Nat.le_zero.mp hg)
      subst ht
      rfl
    | succ g' =>
      simp only [regexUJF]
      cases hss : splitFirstSub userMarker text with
      | none => rfl
      | some pr =>
        obtain ⟨pre, rest⟩ := pr
        dsimp only
        have hlt : rest.length < text.length :=
          splitFirstSub_rest_lt userMarker (by decide) text pre rest hss
        cases hdw : rest.dropWhile isPySpace with
        | nil => exact ih g' rest (by omega) (by omega)
        | cons d tail =>
          dsimp only
          by_cases hd : d = '\x7b'
          · rw [if_pos hd, if_pos hd]
            by_cases hct : tail.contains '\x7d'
            · rw [if_pos hct, if_pos hct]
            · rw [if_neg hct, if_neg hct]
              exact ih g' rest (by omega) (by omega)
          · rw [if_neg hd, if_neg hd]
            exact ih g' rest (by omega) (by omega)

/-- One-step unfolding of `regex_user_json`. -/
theorem regex_user_json_eq (text : List Char) :
    regex_user_json text =
      match splitFirstSub userMarker text with
      | none => none
      | some (_, rest) =>
        match rest.dropWhile isPySpace with
        | [] => regex_user_json rest
        | d :: tail =>
          if d = '\x7b' then
            if tail.contains '\x7d' then
              some (userMarker ++ rest.takeWhile isPySpace ++ d :: takeThrough '\x7d' tail,
                d :: takeThrough '\x7d' tail)
            else regex_user_json rest
          else regex_user_json rest := by
  unfold regex_user_json
  cases htl : text.length with
  | zero =>
    have ht : text = [] := List.length_eq_zero.mp htl
    subst ht
    rfl
  | succ n =>
    simp only [regexUJF]
    cases hss : splitFirstSub userMarker text with
    | none => rfl
    | some pr =>
      obtain ⟨pre, rest⟩ := pr
      dsimp only
      have hlt : rest.length < text.length :=
        splitFirstSub_rest_lt userMarker (by decide) text pre rest hss
      rw [htl] at hlt
      cases hdw : rest.dropWhile isPySpace with
      | nil => exact regexUJF_mono n rest.length rest (by omega) (le_refl _)
      | cons d tail =>
        dsimp only
        by_cases hd : d = '\x7b'
        · rw [if_pos hd, if_pos hd]
          by_cases hct : tail.contains '\x7d'
          · rw [if_pos hct, if_pos hct]
          · rw [if_neg hct, if_neg hct]
            exact regexUJF_mono n rest.length rest (by omega) (le_refl _)
        · rw [if_neg hd, if_neg hd]
          exact regexUJF_mono n rest.length rest (by omega) (le_refl _)

/-- `FouserBot._extract_profile_json` (Fouserbot.py lines 170-178): find
the profile block and `json.loads` its capture; `None` when the regex does
not match or the capture fails to parse (the `JSONDecodeError` is logged
and swallowed). -/
def extract_profile_json (text : List Char) : Option JObj :=
  match regex_user_json text with
  | some (_, cap) => json_loads cap
  | none => none

/-- `FouserBot._extract_plan_text` (Fouserbot.py lines 180-201): remove
the completion marker, the matched profile-block substring and the
disclaimer suffix, stripping after each removal; placeholder when empty. -/
def extract_plan_text (text : List Char) : List Char :=
  let p1 := strip (replaceAll endMarker [] text)
  let p2 :=
    match regex_user_json p1 with
    | some (g0, _) => strip (replaceAll g0 [] p1)
    | none => p1
  let p3 :=
    match findCI trigger p2 with
    | some g0 => strip (replaceAll g0 [] p2)
    | none => p2
  if p3.isEmpty then "No plan was generated.".data else strip p3

/-- A `plan_history` row. -/
structure PlanRecord where
  user_id : Int
  plan_text : List Char
  profile_json : JObj
  start_date : Nat
  end_date : Option Nat
deriving DecidableEq

/-- A `conversation_history` row. -/
structure Turn where
  user_id : Int
  sender : List Char
  message_text : List Char
deriving DecidableEq

/-- The structured store: the three Supabase collections. -/
structure Store where
  users : List (Int × JObj)
  plan_history : List PlanRecord
  conversation_history : List Turn
deriving DecidableEq

/-- Decimal digits of a natural number (`Nat.toDigits` is the fuel-driven
core routine, kernel-reducible). -/
def natChars (n : Nat) : List Char := Nat.toDigits 10 n

/-- Decimal rendering of an integer (Python's `int` as a JSON number). -/
def intChars : Int → List Char
  | .ofNat n => natChars n
  | .negSucc n => '-' :: natChars (n + 1)

/-- The `'user_id'` dict key. -/
def userIdKey : List Char := "user_id".data

/-- Python's `d[k] = v` on a dict rendered as an ordered key/value list:
replace in place when the key exists, append otherwise. -/
def dictSet (o : JObj) (k : List Char) (v : JVal) : JObj :=
  if o.any (fun kv => kv.1 == k) then
    o.map fun kv => if kv.1 == k then (k, v) else kv
  else o ++ [(k, v)]

/-- Lookup in a dict rendered as an ordered key/value list. -/
def dictLookup (o : JObj) (k : List Char) : Option JVal :=
  (o.find? (fun kv => kv.1 == k)).map (fun kv => kv.2)

/-- Supabase `table('users').upsert(row)` keyed on the `user_id` primary
key: update the existing row or insert a new one. -/
def upsertUser (rows : List (Int × JObj)) (uid : Int) (p : JObj) :
    List (Int × JObj) :=
  if rows.any (fun row => row.1 == uid) then
    rows.map fun row => if row.1 == uid then (uid, p) else row
  else rows ++ [(uid, p)]

/-- Supabase `table('plan_history').update({end_date: now}).eq('user_id',
uid).is_('end_date', None)`: close every active plan of the user. -/
def closeActive (ph : List PlanRecord) (uid : Int) (now : Nat) :
    List PlanRecord :=
  ph.map fun r =>
    if r.user_id == uid && r.end_date.isNone then
      { r with end_date := some now }
    else r

/-- `FouserBot.save_new_plan_and_profile` (Fouserbot.py lines 220-272):
skip on a falsy (empty) profile; otherwise upsert the users row with
`user_id` injected into a copy of the profile, close any active plan, and
insert the new plan with the original profile as snapshot.  `now` is the
single `datetime.now()` timestamp of the call. -/
def save_new_plan_and_profile (st : Store) (uid : Int) (profile : JObj)
    (plan : List Char) (now : Nat) : Store :=
  if profile.isEmpty then st
  else
    let pds := dictSet profile userIdKey (.jnum (intChars uid))
    { users := upsertUser st.users uid pds
      plan_history := closeActive st.plan_history uid now ++
        [⟨uid, plan, profile, now, none⟩]
      conversation_history := st.conversation_history }

/-- The user's plan rows with a null end date. -/
def activePlans (st : Store) (uid : Int) : List PlanRecord :=
  st.plan_history.filter fun r => r.user_id == uid && r.end_date.isNone

/-- `order('start_date', desc=True).limit(1)` over a row list: a row of
maximal start date (ties, which Postgres leaves unspecified, keep the
earliest row). -/
def latestBy : List PlanRecord → Option PlanRecord
  | [] => none
  | r :: rs =>
    match latestBy rs with
    | none => some r
    | some b => some (if b.start_date ≤ r.start_date then r else b)

/-- `FouserBot._load_profile` (Fouserbot.py lines 131-167): the users row
for the id, paired with the plan text of the active plan of latest start
date (or the literal fallback). -/
def load_profile (st : Store) (uid : Int) : Option (JObj × List Char) :=
  match st.users.find? (fun row => row.1 == uid) with
  | none => none
  | some row =>
    let lp :=
      match latestBy (activePlans st uid) with
      | some r => r.plan_text
      | none => "No previous plan found.".data
    some (row.2, lp)

/-- `FouserBot._log_conversation` (Fouserbot.py lines 204-217): append a
row to `conversation_history`. -/
def log_conversation (st : Store) (uid : Int) (sender msg : List Char) :
    Store :=
  { st with conversation_history :=
      st.conversation_history ++ [⟨uid, sender, msg⟩] }

/-- The response-processing tail of `FouserBot.main_chat_handler`
(Fouserbot.py lines 340-366): gate on the completion marker, fall back to
the marker-stripped raw text when `updated_profile_json` is falsy (absent
or the empty dict), otherwise persist and reply with plan text plus the
re-attached disclaimer. -/
def handle_ai_reply (st : Store) (uid : Int) (ai : List Char) (now : Nat) :
    Store × List Char :=
  if hasSub endMarker ai then
    match extract_profile_json ai with
    | none => (st, strip (replaceAll endMarker [] ai))
    | some p =>
      if p.isEmpty then (st, strip (replaceAll endMarker [] ai))
      else
        let plan := extract_plan_text ai
        let st2 := save_new_plan_and_profile st uid p plan now
        let disc :=
          match findCI trigger ai with
          | some g0 => strip (replaceAll endMarker [] g0)
          | none => []
        (st2, strip (plan ++ '\n' :: '\n' :: disc))
  else (st, ai)

/-- `main_chat_handler` from the AI-reply logging onwards (Fouserbot.py
lines 338-366): log the reply as an `ai` turn, then process it. -/
def on_ai_message (st : Store) (uid : Int) (ai : List Char) (now : Nat) :
    Store × List Char :=
  handle_ai_reply (log_conversation st uid "ai".data ai) uid ai now

/-- Process state: the structured store plus the per-user in-memory
`context.user_data` session handles (opaque handles as `Nat`). -/
structure SysState where
  store : Store
  sessions : Int → Option Nat

/-- `FouserBot.reset_chat` (Fouserbot.py lines 373-376):
`context.user_data.clear()` drops the invoking user's session handle; the
structured store is not touched. -/
def reset_chat (s : SysState) (uid : Int) : SysState :=
  { store := s.store
    sessions := fun u => if u == uid then none else s.sessions u }

/-- The reply shape of testable property 3 of the spec:
`"[USER_DATA_JSON] " + json(profile) + "\n" + tenPointBody +
"\nPlease consult a doctor.\n[END_OF_PLAN]"`. -/
def planTemplate (p : JObj) (body : List Char) : List Char :=
  userMarker ++ ' ' :: jdumps p ++ '\n' :: body ++
    '\n' :: "Please consult a doctor.".data ++ '\n' :: endMarker

/-! Concrete sample replies, profiles and stores, used to evaluate the
theorems on closed inputs. -/

/-- A complete plan reply: profile block, plan body, disclaimer, marker. -/
def sampleReplyFull : List Char :=
  "[USER_DATA_JSON] \x7b\"name\": \"Sam\"\x7d\nplan A\nPlease consult a doctor.\n[END_OF_PLAN]".data

/-- A reply with a profile-shaped block but no completion marker. -/
def sampleReplyNoMarker : List Char :=
  "[USER_DATA_JSON] \x7b\"a\": 1\x7d no marker here".data

/-- A reply whose profile block is the empty JSON object. -/
def sampleReplyEmptyObj : List Char :=
  "[USER_DATA_JSON] \x7b\x7d\nplan body\nPlease consult a doctor.\n[END_OF_PLAN]".data

/-- A reply with the completion marker but no profile block. -/
def sampleReplyNoJson : List Char := "hi [END_OF_PLAN]".data

/-- The profile block of `sampleReplyFull`, parsed. -/
def sampleProfile : JObj := [("name".data, JVal.jstr "Sam".data)]

/-- A store holding one user row and one active plan for user 3. -/
def sampleStore : Store :=
  ⟨[(3, [("old".data, JVal.jnum "1".data)])], [⟨3, "old plan".data, [], 0, none⟩], []⟩

/-- An invariant-violating store with two active plans for user 3. -/
def sampleStoreTwoActive : Store :=
  ⟨[(3, [("name".data, JVal.jstr "Sam".data)])],
    [⟨3, "older".data, [], 1, none⟩, ⟨3, "newer".data, [], 5, none⟩,
      ⟨4, "other".data, [], 9, none⟩], []⟩

/-- A model profile that itself contains a `user_id` key. -/
def sampleProfileWithId : JObj :=
  [("user_id".data, JVal.jnum "999".data), ("goal".data, JVal.jstr "bulk".data)]

/-- A flat profile for the round-trip template. -/
def sampleProfileNum : JObj := [("a".data, JVal.jnum "1".data)]

/-- A text whose profile block is a valid JSON object containing a closing
brace inside a string value. -/
def sampleReplyBraceInString : List Char :=
  "[USER_DATA_JSON] \x7b\"a\": \"x\x7dy\"\x7d".data

/-- The JSON object text following the marker in
`sampleReplyBraceInString`. -/
def sampleBraceObjText : List Char := "\x7b\"a\": \"x\x7dy\"\x7d".data

/-! Substring, replacement and stripping lemmas. -/

theorem splitFirstSub_eq_append :
    ∀ l b a, splitFirstSub pat l = some (b, a) → l = b ++ pat ++ a := by
  intro l
  induction l with
  | nil => intro b a h; simp [splitFirstSub] at h
  | cons c cs ih =>
    intro b a h
    simp only [splitFirstSub] at h
    split at h
    next hpre =>
      injection h with h'
      injection h' with h1 h2
      have hp : pat <+: c :: cs := List.isPrefixOf_iff_prefix.mp hpre
      rw [← h1, ← h2]
      simp only [List.nil_append]
      exact (List.prefix_iff_eq_append.mp hp).symm
    next hpre =>
      split at h
      next b0 a0 hss =>
        injection h with h'
        injection h' with h1 h2
        have := ih b0 a0 hss
        rw [← h1, ← h2, this]
        simp
      next hss => simp at h

theorem splitFirstSub_none (hp : pat ≠ []) :
    ∀ l, splitFirstSub pat l = none → ¬ pat <:+: l := by
  intro l
  induction l with
  | nil =>
    intro _ hinf
    exact hp (List.infix_nil.mp hinf)
  | cons c cs ih =>
    intro h hinf
    simp only [splitFirstSub] at h
    split at h
    next hpre => simp at h
    next hpre =>
      rcases List.infix_cons_iff.mp hinf with hl | hr
      · exact hpre (List.isPrefixOf_iff_prefix.mpr hl)
      · split at h
        next => simp at h
        next hss => exact ih hss hr

theorem hasSub_iff (hp : pat ≠ []) (l : List Char) :
    hasSub pat l = true ↔ pat <:+: l := by
  constructor
  · intro h
    unfold hasSub at h
    cases hss : splitFirstSub pat l with
    | none => rw [hss] at h; simp at h
    | some pr =>
      have := splitFirstSub_eq_append l pr.1 pr.2 (by rw [hss])
      exact ⟨pr.1, pr.2, this.symm⟩
  · intro h
    unfold hasSub
    cases hss : splitFirstSub pat l with
    | none => exact absurd h (splitFirstSub_none hp l hss)
    | some pr => simp

theorem hasSub_false (hp : pat ≠ []) (l : List Char)
    (h : hasSub pat l = false) : ¬ pat <:+: l := by
  intro hinf
  rw [(hasSub_iff hp l).mpr hinf] at h
  simp at h

theorem prefix_append_cons {pat xs ys : List Char} {c : Char} (hc : c ∉ pat)
    (h : pat <+: xs ++ c :: ys) : pat <+: xs := by
  induction xs generalizing pat with
  | nil =>
    cases pat with
    | nil => exact List.nil_prefix
    | cons p pr =>
      simp only [List.nil_append] at h
      rcases List.cons_prefix_cons.mp h with ⟨h1, _⟩
      exact absurd (h1 ▸ List.mem_cons_self p pr) hc
  | cons x xs' ih =>
    cases pat with
    | nil => exact List.nil_prefix
    | cons p pr =>
      simp only [List.cons_append] at h
      rcases List.cons_prefix_cons.mp h with ⟨h1, h2⟩
      have hcpr : c ∉ pr := fun hm => hc (List.mem_cons_of_mem p hm)
      exact List.cons_prefix_cons.mpr ⟨h1, ih hcpr h2⟩

theorem infix_append_cons_split {pat xs ys : List Char} {c : Char}
    (hp : pat ≠ []) (hc : c ∉ pat) (h : pat <:+: xs ++ c :: ys) :
    pat <:+: xs ∨ pat <:+: ys := by
  induction xs with
  | nil =>
    simp only [List.nil_append] at h
    rcases List.infix_cons_iff.mp h with hl | hr
    · cases pat with
      | nil => exact absurd rfl hp
      | cons p pr =>
        rcases List.cons_prefix_cons.mp hl with ⟨h1, _⟩
        exact absurd (h1 ▸ List.mem_cons_self p pr) hc
    · exact Or.inr hr
  | cons x xs' ih =>
    simp only [List.cons_append] at h
    rcases List.infix_cons_iff.mp h with hl | hr
    · exact Or.inl (prefix_append_cons hc hl).isInfix
    · rcases ih hr with h1 | h2
      · exact Or.inl (List.infix_cons h1)
      · exact Or.inr h2

theorem prefix_of_append_of_length_le {l A B : List Char}
    (h : l <+: A ++ B) (hlen : l.length ≤ A.length) : l <+: A := by
  induction A generalizing l with
  | nil =>
    simp [List.length_eq_zero.mp (Nat.le_zero.mp hlen)]
  | cons a A' ih =>
    cases l with
    | nil => exact List.nil_prefix
    | cons x l' =>
      simp only [List.cons_append] at h
      rcases List.cons_prefix_cons.mp h with ⟨h1, h2⟩
      simp only [List.length_cons] at hlen
      exact List.cons_prefix_cons.mpr ⟨h1, ih h2 (by omega)⟩

theorem replaceAll_no_occ {pat rep : List Char} :
    ∀ l, ¬ pat <:+: l → replaceAll pat rep l = l := by
  intro l
  induction l with
  | nil => intro _; rfl
  | cons c cs ih =>
    intro h
    rw [replaceAll_cons]
    split
    next hcond =>
      exact absurd (List.isPrefixOf_iff_prefix.mp hcond.2).isInfix h
    next hcond =>
      rw [ih (fun hinf => h (List.infix_cons hinf))]

theorem replaceAll_append_end {pat : List Char} (hp : pat ≠ []) :
    ∀ xs, ¬ pat <:+: (xs ++ pat.dropLast) → replaceAll pat [] (xs ++ pat) = xs := by
  intro xs
  induction xs with
  | nil =>
    intro _
    simp only [List.nil_append]
    cases pat with
    | nil => exact absurd rfl hp
    | cons q qs =>
      rw [replaceAll_cons]
      split
      next =>
        rw [List.drop_length, replaceAll_nil]
        rfl
      next hcond =>
        exact absurd ⟨hp, List.isPrefixOf_iff_prefix.mpr (List.prefix_refl _)⟩ hcond
  | cons x xs' ih =>
    intro h
    have hlast : ∃ hne : pat ≠ [], pat.dropLast ++ [pat.getLast hne] = pat :=
      ⟨hp, List.dropLast_append_getLast hp⟩
    rw [List.cons_append, replaceAll_cons]
    split
    next hcond =>
      exfalso
      have hpre : pat <+: x :: (xs' ++ pat) := List.isPrefixOf_iff_prefix.mp hcond.2
      rcases hlast with ⟨hne, hdl⟩
      have hre : x :: (xs' ++ pat) = (x :: (xs' ++ pat.dropLast)) ++ [pat.getLast hne] := by
        conv_lhs => rw [← hdl]
        simp
      rw [hre] at hpre
      have hlen : pat.length ≤ (x :: (xs' ++ pat.dropLast)).length := by
        simp only [List.length_cons, List.length_append, List.length_dropLast]
        have : 0 < pat.length := List.length_pos.mpr hp
        omega
      have := prefix_of_append_of_length_le hpre hlen
      rw [show x :: (xs' ++ pat.dropLast) = (x :: xs') ++ pat.dropLast by simp] at this
      exact h this.isInfix
    next hcond =>
      have h' : ¬ pat <:+: (xs' ++ pat.dropLast) := by
        intro hinf
        apply h
        rw [show (x :: xs') ++ pat.dropLast = x :: (xs' ++ pat.dropLast) by simp]
        exact List.infix_cons hinf
      rw [ih h']

theorem replaceAll_at_head {pat rep : List Char} (hp : pat ≠ []) (zs : List Char) :
    replaceAll pat rep (pat ++ zs) = rep ++ replaceAll pat rep zs := by
  cases pat with
  | nil => exact absurd rfl hp
  | cons q qs =>
    have hqz : (q :: qs) ++ zs = q :: (qs ++ zs) := by simp
    rw [hqz, replaceAll_cons]
    split
    next hcond =>
      rw [← hqz, List.drop_left]
    next hcond =>
      exfalso
      apply hcond
      refine ⟨by simp, List.isPrefixOf_iff_prefix.mpr ?_⟩
      rw [← hqz]
      exact List.prefix_append _ zs

theorem takeThrough_append {c : Char} :
    ∀ xs ys, c ∉ xs → takeThrough c (xs ++ c :: ys) = xs ++ [c] := by
  intro xs ys
  induction xs with
  | nil => intro _; simp [takeThrough]
  | cons x xs' ih =>
    intro h
    have hx : x ≠ c := fun he => h (he ▸ List.mem_cons_self x xs')
    have h' : c ∉ xs' := fun hm => h (List.mem_cons_of_mem x hm)
    simp only [List.cons_append, takeThrough, if_neg hx, List.append_eq]
    rw [ih h']

/-! Stripping lemmas. -/

theorem strip_length_le (l : List Char) : (strip l).length ≤ l.length := by
  unfold strip stripLeft
  rw [List.length_reverse]
  calc ((l.dropWhile isPySpace).reverse.dropWhile isPySpace).length
      ≤ (l.dropWhile isPySpace).reverse.length :=
        List.Sublist.length_le (List.dropWhile_sublist _)
    _ = (l.dropWhile isPySpace).length := List.length_reverse _
    _ ≤ l.length := List.Sublist.length_le (List.dropWhile_sublist _)

theorem strip_cons_ws {a : Char} {l : List Char} (ha : isPySpace a = true) :
    strip (a :: l) = strip l := by
  unfold strip stripLeft
  rw [List.dropWhile_cons, if_pos ha]

theorem strip_append_ws {a : Char} (ha : isPySpace a = true) (l : List Char) :
    strip (l ++ [a]) = strip l := by
  unfold strip stripLeft
  rw [List.dropWhile_append]
  by_cases he : (l.dropWhile isPySpace).isEmpty
  · rw [if_pos he]
    have h0 : l.dropWhile isPySpace = [] := List.isEmpty_iff.mp he
    rw [h0]
    simp [List.dropWhile_cons, ha]
  · rw [if_neg he]
    rw [List.reverse_append]
    simp only [List.reverse_cons, List.reverse_nil, List.nil_append, List.singleton_append]
    rw [List.dropWhile_cons, if_pos ha]

theorem strip_eq_self_of {l : List Char}
    (h1 : ∀ a t, l = a :: t → isPySpace a = false)
    (h2 : ∀ a, l.getLast? = some a → isPySpace a = false) :
    strip l = l := by
  cases l with
  | nil => rfl
  | cons a t =>
    have ha : isPySpace a = false := h1 a t rfl
    unfold strip stripLeft
    rw [List.dropWhile_cons, if_neg (by simp [ha])]
    obtain ⟨c, hc⟩ : ∃ c, (a :: t).getLast? = some c :=
      Option.isSome_iff_exists.mp (List.getLast?_isSome.mpr (by simp))
    have hcw : isPySpace c = false := h2 c hc
    have hhr : (a :: t).reverse.head? = some c := by
      rw [List.head?_reverse]; exact hc
    cases hrev : (a :: t).reverse with
    | nil => simp [hrev] at hhr
    | cons c0 rest =>
      rw [hrev] at hhr
      simp only [List.head?_cons, Option.some.injEq] at hhr
      have hc0 : isPySpace c0 = false := by rw [hhr]; exact hcw
      rw [List.dropWhile_cons, if_neg (by simp [hc0])]
      rw [← hrev, List.reverse_reverse]

theorem head_not_ws_of_strip_eq {l : List Char} (h : strip l = l) :
    ∀ a t, l = a :: t → isPySpace a = false := by
  intro a t hl
  by_contra hws
  simp only [Bool.not_eq_false] at hws
  have h1 : strip l = strip t := by rw [hl]; exact strip_cons_ws hws
  rw [h, hl] at h1
  have hlen := congrArg List.length h1
  rw [List.length_cons] at hlen
  have := strip_length_le t
  omega

theorem last_not_ws_of_strip_eq {l : List Char} (h : strip l = l) :
    ∀ a, l.getLast? = some a → isPySpace a = false := by
  intro a hla
  by_contra hws
  simp only [Bool.not_eq_false] at hws
  have hdl : l.dropLast ++ [a] = l := List.dropLast_append_getLast? a hla
  have h1 : strip l = strip l.dropLast := by
    conv_lhs => rw [← hdl]
    exact strip_append_ws hws _
  rw [h] at h1
  have h2 := congrArg List.length h1
  have h3 := strip_length_le l.dropLast
  have h4 : l.dropLast.length = l.length - 1 := List.length_dropLast l
  have h5 : l ≠ [] := by intro he; rw [he] at hla; simp at hla
  have h6 : 0 < l.length := List.length_pos.mpr h5
  omega

/-! Lemmas about the two regex models. -/

theorem findCI_append_skip {pat : List Char} {c : Char} (hc : lower c ∉ pat) :
    ∀ xs ys, ¬ pat <:+: xs.map lower →
      findCI pat (xs ++ c :: ys) = findCI pat (c :: ys) := by
  intro xs
  induction xs with
  | nil => intro ys _; rfl
  | cons x xs' ih =>
    intro ys hxs
    have hxs' : ¬ pat <:+: xs'.map lower := by
      intro hinf
      apply hxs
      rw [List.map_cons]
      exact List.infix_cons hinf
    have hpre : ¬ (pat.isPrefixOf ((x :: (xs' ++ c :: ys)).map lower) = true) := by
      intro hb
      have hl := List.isPrefixOf_iff_prefix.mp hb
      rw [show x :: (xs' ++ c :: ys) = (x :: xs') ++ c :: ys by simp] at hl
      rw [List.map_append, List.map_cons] at hl
      exact hxs (prefix_append_cons hc hl).isInfix
    rw [show (x :: xs') ++ c :: ys = x :: (xs' ++ c :: ys) by simp]
    simp only [findCI]
    rw [if_neg hpre]
    exact ih ys hxs'

theorem splitFirstSub_exact {pat : List Char} (hp : pat ≠ []) :
    ∀ pre tail, ¬ pat <:+: (pre ++ pat.dropLast) →
      splitFirstSub pat (pre ++ (pat ++ tail)) = some (pre, tail) := by
  intro pre
  induction pre with
  | nil =>
    intro tail _
    simp only [List.nil_append]
    have hcond : pat.isPrefixOf (pat ++ tail) = true :=
      List.isPrefixOf_iff_prefix.mpr (List.prefix_append pat tail)
    cases hpc : pat with
    | nil => exact absurd hpc hp
    | cons q qs =>
      rw [show (q :: qs) ++ tail = q :: (qs ++ tail) by simp]
      simp only [splitFirstSub]
      rw [if_pos (by rw [show q :: (qs ++ tail) = (q :: qs) ++ tail by simp, ← hpc]; exact hcond)]
      rw [show q :: (qs ++ tail) = (q :: qs) ++ tail by simp, ← hpc, List.drop_left]
  | cons x pre' ih =>
    intro tail h
    have hnp : ¬ (pat.isPrefixOf (x :: (pre' ++ (pat ++ tail))) = true) := by
      intro hb
      have hl := List.isPrefixOf_iff_prefix.mp hb
      obtain ⟨hne, hdl⟩ :
          ∃ hne : pat ≠ [], pat.dropLast ++ [pat.getLast hne] = pat :=
        ⟨hp, List.dropLast_append_getLast hp⟩
      have hre : x :: (pre' ++ (pat ++ tail)) =
          ((x :: pre') ++ pat.dropLast) ++ ([pat.getLast hne] ++ tail) := by
        conv_lhs => rw [← hdl]
        simp [List.append_assoc]
      rw [hre] at hl
      have hlen : pat.length ≤ ((x :: pre') ++ pat.dropLast).length := by
        simp only [List.length_append, List.length_cons, List.length_dropLast]
        have : 0 < pat.length := List.length_pos.mpr hp
        omega
      exact h (prefix_of_append_of_length_le hl hlen).isInfix
    rw [show (x :: pre') ++ (pat ++ tail) = x :: (pre' ++ (pat ++ tail)) by simp]
    simp only [splitFirstSub]
    rw [if_neg hnp]
    have h' : ¬ pat <:+: (pre' ++ pat.dropLast) := by
      intro hinf
      apply h
      rw [show (x :: pre') ++ pat.dropLast = x :: (pre' ++ pat.dropLast) by simp]
      exact List.infix_cons hinf
    rw [ih tail h']

/-! Lemmas about the modelled JSON fragment. -/

theorem plainChar_spec {c : Char} (h : plainChar c = true) :
    c ≠ '"' ∧ c ≠ '\\' ∧ c ≠ '\x7d' ∧ c ≠ '[' := by
  unfold plainChar at h
  simp only [Bool.and_eq_true, decide_eq_true_eq] at h
  exact ⟨h.1.1.1.2, h.1.1.2, h.1.2, h.2⟩

theorem digit_ne_special {c : Char} (h : c.isDigit = true) :
    c ≠ '\x7d' ∧ c ≠ '[' ∧ c ≠ '"' ∧ c ≠ ',' := by
  refine ⟨?_, ?_, ?_, ?_⟩ <;>
    { intro he; rw [he] at h; exact absurd h (by decide) }

theorem digit_not_ws {c : Char} (h : c.isDigit = true) : isPySpace c = false := by
  by_contra hb
  simp only [Bool.not_eq_false] at hb
  unfold isPySpace at hb
  simp only [Bool.or_eq_true, beq_iff_eq] at hb
  rcases hb with ((((h1 | h1) | h1) | h1) | h1) | h1 <;>
    { rw [h1] at h; exact absurd h (by decide) }

theorem numStr_parts {a : Char} {t : List Char} (h : numStr (a :: t) = true) :
    (a = '-' ∧ t ≠ [] ∧ t.all (fun c => c.isDigit) = true) ∨
      (a.isDigit = true ∧ (a :: t).all (fun c => c.isDigit) = true) := by
  by_cases ha : a = '-'
  · subst ha
    left
    have h' : (!t.isEmpty && t.all fun c => c.isDigit) = true := h
    simp only [Bool.and_eq_true, Bool.not_eq_true'] at h'
    exact ⟨rfl, by simpa [List.isEmpty_iff] using h'.1, h'.2⟩
  · right
    have h' : (!(a :: t).isEmpty && (a :: t).all fun c => c.isDigit) = true := by
      unfold numStr at h
      split at h
      next t' heq =>
        exfalso
        apply ha
        injection heq
      next => exact h
    simp only [Bool.and_eq_true] at h'
    have h2 := h'.2
    rw [List.all_cons] at h2
    simp only [Bool.and_eq_true] at h2
    exact ⟨h2.1, h'.2⟩

theorem skipWs_not_ws {c : Char} {l : List Char} (hc : isPySpace c = false) :
    skipWs (c :: l) = c :: l := by
  unfold skipWs
  rw [List.dropWhile_cons, if_neg (by simp [hc])]

theorem parseStr_plain {s : List Char} (hs : plainStr s = true) :
    ∀ r, parseStr (s ++ '"' :: r) = some (s, r) := by
  induction s with
  | nil => intro r; simp [parseStr]
  | cons c cs ih =>
    intro r
    have hs' : plainChar c = true ∧ plainStr cs = true := by
      simpa [plainStr, List.all_cons, Bool.and_eq_true] using hs
    obtain ⟨hq, hb, _, _⟩ := plainChar_spec hs'.1
    rw [List.cons_append]
    simp only [parseStr]
    rw [if_neg hq, if_neg hb, ih hs'.2 r]

theorem digitsRest_exact {t r : List Char} (ht : t.all (fun c => c.isDigit) = true)
    (hne : t ≠ []) (hr : r.takeWhile (fun c => c.isDigit) = []) :
    digitsRest (t ++ r) = some (t, r) := by
  simp only [digitsRest]
  have htw : (t ++ r).takeWhile (fun c => c.isDigit) =
      t ++ r.takeWhile (fun c => c.isDigit) :=
    List.takeWhile_append_of_pos (List.all_eq_true.mp ht)
  rw [htw, hr, List.append_nil]
  rw [if_neg (by simp [List.isEmpty_iff, hne]), List.drop_left]

theorem parseNum_dump {d r : List Char} (hd : numStr d = true)
    (hr : r.takeWhile (fun c => c.isDigit) = []) :
    parseNum (d ++ r) = some (d, r) := by
  cases d with
  | nil => simp [numStr] at hd
  | cons a t =>
    rcases numStr_parts hd with ⟨ha, hne, hall⟩ | ⟨hdig, hall⟩
    · subst ha
      rw [show ('-' :: t) ++ r = '-' :: (t ++ r) by simp]
      simp only [parseNum]
      rw [digitsRest_exact hall hne hr]
    · rw [show (a :: t) ++ r = a :: (t ++ r) by simp]
      have hd2 : digitsRest (a :: (t ++ r)) = some (a :: t, r) := by
        rw [show a :: (t ++ r) = (a :: t) ++ r by simp]
        exact digitsRest_exact hall (by simp) hr
      have hna : a ≠ '-' := by
        intro he; rw [he] at hdig; exact absurd hdig (by decide)
      unfold parseNum
      split
      next ls heq =>
        exfalso
        apply hna
        injection heq
      next ls heq =>
        exact hd2

theorem parseVal_dump {v : JVal} (hv : validVal v = true) {r : List Char}
    (hr : r.takeWhile (fun c => c.isDigit) = []) :
    parseVal (valDump v ++ r) = some (v, r) := by
  cases v with
  | jstr s =>
    have hs : plainStr s = true := hv
    simp only [valDump]
    rw [show ('"' :: s ++ ['"']) ++ r = '"' :: (s ++ '"' :: r) by simp]
    simp only [parseVal]
    rw [parseStr_plain hs r]
  | jnum d =>
    have hd : numStr d = true := hv
    simp only [valDump]
    cases d with
    | nil => simp [numStr] at hd
    | cons a t =>
      have ha : a ≠ '"' := by
        rcases numStr_parts hd with ⟨ha, _, _⟩ | ⟨hdig, _⟩
        · rw [ha]; decide
        · exact (digit_ne_special hdig).2.2.1
      have hpn : parseNum ((a :: t) ++ r) = some (a :: t, r) := parseNum_dump hd hr
      unfold parseVal
      split
      next cs heq =>
        exfalso
        apply ha
        rw [List.cons_append] at heq
        injection heq
      next hne =>
        rw [hpn]

theorem mem_valDump {c : Char} {v : JVal} (hv : validVal v = true)
    (hm : c ∈ valDump v) : c ≠ '\x7d' ∧ c ≠ '[' := by
  cases v with
  | jstr s =>
    have hs : ∀ x ∈ s, plainChar x = true := by
      simpa [validVal, plainStr, List.all_eq_true] using hv
    simp only [valDump] at hm
    rcases List.mem_cons.mp hm with hc | hm2
    · subst hc; exact ⟨by decide, by decide⟩
    · rcases List.mem_append.mp hm2 with hin | hq
      · have := plainChar_spec (hs c hin)
        exact ⟨this.2.2.1, this.2.2.2⟩
      · have : c = '"' := by simpa using hq
        subst this; exact ⟨by decide, by decide⟩
  | jnum d =>
    have hd : numStr d = true := hv
    cases d with
    | nil => simp [valDump] at hm
    | cons a t =>
      simp only [valDump] at hm
      rcases numStr_parts hd with ⟨ha, _, hall⟩ | ⟨_, hall⟩
      · subst ha
        rcases List.mem_cons.mp hm with hc | hm2
        · subst hc; exact ⟨by decide, by decide⟩
        · have := digit_ne_special (List.all_eq_true.mp hall c hm2)
          exact ⟨this.1, this.2.1⟩
      · have := digit_ne_special (List.all_eq_true.mp hall c hm)
        exact ⟨this.1, this.2.1⟩

theorem mem_pairDump {c : Char} {kv : List Char × JVal}
    (hk : plainStr kv.1 = true) (hv : validVal kv.2 = true)
    (hm : c ∈ pairDump kv) : c ≠ '\x7d' ∧ c ≠ '[' := by
  have hks : ∀ x ∈ kv.1, plainChar x = true := by
    simpa [plainStr, List.all_eq_true] using hk
  simp only [pairDump] at hm
  rcases List.mem_cons.mp hm with hc | hm2
  · subst hc; exact ⟨by decide, by decide⟩
  rcases List.mem_append.mp hm2 with hin | hm3
  · have := plainChar_spec (hks c hin)
    exact ⟨this.2.2.1, this.2.2.2⟩
  rcases List.mem_cons.mp hm3 with hc | hm4
  · subst hc; exact ⟨by decide, by decide⟩
  rcases List.mem_cons.mp hm4 with hc | hm5
  · subst hc; exact ⟨by decide, by decide⟩
  rcases List.mem_cons.mp hm5 with hc | hm6
  · subst hc; exact ⟨by decide, by decide⟩
  exact mem_valDump hv hm6

theorem validProfile_cons {kv : List Char × JVal} {rest : JObj}
    (hp : validProfile (kv :: rest) = true) :
    plainStr kv.1 = true ∧ validVal kv.2 = true ∧ validProfile rest = true := by
  have h1 : ((plainStr kv.1 && validVal kv.2) && rest.all
      (fun kv => plainStr kv.1 && validVal kv.2)) = true := by
    have := hp
    unfold validProfile at this
    rw [List.all_cons] at this
    exact this
  simp only [Bool.and_eq_true] at h1
  exact ⟨h1.1.1, h1.1.2, h1.2⟩

theorem mem_membersDump :
    ∀ p : JObj, validProfile p = true →
      ∀ c ∈ membersDump p, c ≠ '\x7d' ∧ c ≠ '[' := by
  intro p
  induction p with
  | nil => intro _ c hc; simp [membersDump] at hc
  | cons kv rest ih =>
    intro hp c hc
    obtain ⟨hk, hv, hrest⟩ := validProfile_cons hp
    cases rest with
    | nil =>
      exact mem_pairDump hk hv (by simpa [membersDump] using hc)
    | cons kv2 rs =>
      simp only [membersDump] at hc
      rcases List.mem_append.mp hc with h1 | h2
      · exact mem_pairDump hk hv h1
      rcases List.mem_cons.mp h2 with hc2 | h3
      · subst hc2; exact ⟨by decide, by decide⟩
      rcases List.mem_cons.mp h3 with hc2 | h4
      · subst hc2; exact ⟨by decide, by decide⟩
      exact ih hrest c h4

theorem membersDump_head {p : JObj} (hne : p ≠ []) :
    ∃ t, membersDump p = '"' :: t := by
  cases p with
  | nil => exact absurd rfl hne
  | cons kv rest =>
    cases rest with
    | nil => exact ⟨kv.1 ++ '"' :: ':' :: ' ' :: valDump kv.2, by simp [membersDump, pairDump]⟩
    | cons kv2 rs =>
      exact ⟨kv.1 ++ '"' :: ':' :: ' ' :: valDump kv.2 ++
        ',' :: ' ' :: membersDump (kv2 :: rs), by simp [membersDump, pairDump]⟩

theorem skipWs_space (l : List Char) : skipWs (' ' :: l) = skipWs l := by
  unfold skipWs
  rw [List.dropWhile_cons, if_pos (by decide)]

theorem skipWs_valDump {v : JVal} (hv : validVal v = true) (z : List Char) :
    skipWs (valDump v ++ z) = valDump v ++ z := by
  cases v with
  | jstr s =>
    rw [show valDump (.jstr s) ++ z = '"' :: (s ++ '"' :: z) by simp [valDump]]
    exact skipWs_not_ws (by decide)
  | jnum d =>
    have hd : numStr d = true := hv
    cases d with
    | nil => simp [numStr] at hd
    | cons a t =>
      have hws : isPySpace a = false := by
        rcases numStr_parts hd with ⟨ha, _, _⟩ | ⟨hdig, _⟩
        · rw [ha]; decide
        · exact digit_not_ws hdig
      rw [show valDump (.jnum (a :: t)) ++ z = a :: (t ++ z) by simp [valDump]]
      exact skipWs_not_ws hws

theorem takeWhile_digit_nil {a : Char} (ha : a.isDigit = false) (l : List Char) :
    ((a :: l).takeWhile fun c => c.isDigit) = [] := by
  rw [List.takeWhile_cons, if_neg (by simp [ha])]

theorem parseMembers_dump :
    ∀ p : JObj, validProfile p = true → p ≠ [] →
      ∀ ys, parseMembers (membersDump p ++ '\x7d' :: ys) = some (p, ys) := by
  intro p
  induction p with
  | nil => intro _ hne; exact absurd rfl hne
  | cons kv rest ih =>
    intro hp _ ys
    obtain ⟨k, v⟩ := kv
    obtain ⟨hk, hv, hrest⟩ := validProfile_cons hp
    cases rest with
    | nil =>
      have hshape : membersDump [(k, v)] ++ '\x7d' :: ys =
          '"' :: (k ++ '"' :: (':' :: ' ' :: (valDump v ++ '\x7d' :: ys))) := by
        simp [membersDump, pairDump]
      rw [hshape, parseMembers_eq]
      dsimp only
      rw [if_pos rfl]
      rw [parseStr_plain hk]
      dsimp only
      rw [show skipWs (':' :: ' ' :: (valDump v ++ '\x7d' :: ys)) =
        ':' :: ' ' :: (valDump v ++ '\x7d' :: ys) from skipWs_not_ws (by decide)]
      dsimp only
      rw [if_pos rfl]
      rw [skipWs_space, skipWs_valDump hv]
      rw [parseVal_dump hv (takeWhile_digit_nil (by decide) ys)]
      dsimp only
      rw [show skipWs ('\x7d' :: ys) = '\x7d' :: ys from skipWs_not_ws (by decide)]
      dsimp only
      rw [if_neg (by decide), if_pos rfl]
    | cons kv2 rs =>
      have hshape : membersDump ((k, v) :: kv2 :: rs) ++ '\x7d' :: ys =
          '"' :: (k ++ '"' :: (':' :: ' ' :: (valDump v ++
            ',' :: ' ' :: (membersDump (kv2 :: rs) ++ '\x7d' :: ys)))) := by
        simp [membersDump, pairDump]
      rw [hshape, parseMembers_eq]
      dsimp only
      rw [if_pos rfl]
      rw [parseStr_plain hk]
      dsimp only
      rw [show skipWs (':' :: ' ' :: (valDump v ++
          ',' :: ' ' :: (membersDump (kv2 :: rs) ++ '\x7d' :: ys))) =
        ':' :: ' ' :: (valDump v ++ ',' :: ' ' :: (membersDump (kv2 :: rs) ++ '\x7d' :: ys))
        from skipWs_not_ws (by decide)]
      dsimp only
      rw [if_pos rfl]
      rw [skipWs_space, skipWs_valDump hv]
      rw [parseVal_dump hv (takeWhile_digit_nil (by decide) _)]
      dsimp only
      rw [show skipWs (',' :: ' ' :: (membersDump (kv2 :: rs) ++ '\x7d' :: ys)) =
        ',' :: ' ' :: (membersDump (kv2 :: rs) ++ '\x7d' :: ys)
        from skipWs_not_ws (by decide)]
      dsimp only
      rw [if_pos rfl]
      rw [skipWs_space]
      have hsk : skipWs (membersDump (kv2 :: rs) ++ '\x7d' :: ys) =
          membersDump (kv2 :: rs) ++ '\x7d' :: ys := by
        obtain ⟨t2, ht2⟩ := @membersDump_head (kv2 :: rs) (by simp)
        rw [ht2, List.cons_append]
        exact skipWs_not_ws (by decide)
      rw [hsk, ih hrest (by simp) ys]

theorem json_loads_jdumps {p : JObj} (hp : validProfile p = true) :
    json_loads (jdumps p) = some p := by
  unfold jdumps json_loads
  rw [List.cons_append]
  rw [show skipWs ('\x7b' :: (membersDump p ++ ['\x7d'])) =
    '\x7b' :: (membersDump p ++ ['\x7d']) from skipWs_not_ws (by decide)]
  dsimp only
  rw [if_pos rfl]
  cases p with
  | nil =>
    simp only [membersDump, List.nil_append]
    rw [show skipWs ['\x7d'] = ['\x7d'] from skipWs_not_ws (by decide)]
    dsimp only
    rw [if_pos rfl, if_pos (by simp [skipWs])]
  | cons kv rest =>
    obtain ⟨t, ht⟩ := @membersDump_head (kv :: rest) (by simp)
    have hsk : skipWs (membersDump (kv :: rest) ++ ['\x7d']) =
        membersDump (kv :: rest) ++ ['\x7d'] := by
      rw [ht, List.cons_append]
      exact skipWs_not_ws (by decide)
    rw [hsk, ht, List.cons_append]
    dsimp only
    rw [if_neg (by decide)]
    rw [← List.cons_append, ← ht]
    rw [show ['\x7d'] = '\x7d' :: ([] : List Char) from rfl]
    rw [parseMembers_dump (kv :: rest) hp (by simp) []]
    dsimp only
    rw [if_pos (by simp [skipWs])]

/-! Store and persistence-pipeline lemmas. -/

theorem activePlans_closeActive (ph : List PlanRecord) (uid : Int) (now : Nat) :
    (closeActive ph uid now).filter
      (fun r => r.user_id == uid && r.end_date.isNone) = [] := by
  rw [List.filter_eq_nil_iff]
  intro r hr
  unfold closeActive at hr
  rw [List.mem_map] at hr
  obtain ⟨r0, hr0, hmap⟩ := hr
  by_cases hc : (r0.user_id == uid && r0.end_date.isNone) = true
  · rw [if_pos hc] at hmap
    rw [← hmap]
    simp
  · rw [if_neg hc] at hmap
    rw [← hmap]
    exact fun hb => hc hb

theorem save_plan_history (st : Store) (uid : Int) (profile : JObj)
    (plan : List Char) (now : Nat) (hp : profile ≠ []) :
    (save_new_plan_and_profile st uid profile plan now).plan_history =
      closeActive st.plan_history uid now ++ [⟨uid, plan, profile, now, none⟩] := by
  unfold save_new_plan_and_profile
  rw [if_neg (by simp [List.isEmpty_iff, hp])]

theorem save_users (st : Store) (uid : Int) (profile : JObj)
    (plan : List Char) (now : Nat) (hp : profile ≠ []) :
    (save_new_plan_and_profile st uid profile plan now).users =
      upsertUser st.users uid (dictSet profile userIdKey (.jnum (intChars uid))) := by
  unfold save_new_plan_and_profile
  rw [if_neg (by simp [List.isEmpty_iff, hp])]

theorem save_conversation (st : Store) (uid : Int) (profile : JObj)
    (plan : List Char) (now : Nat) (hp : profile ≠ []) :
    (save_new_plan_and_profile st uid profile plan now).conversation_history =
      st.conversation_history := by
  unfold save_new_plan_and_profile
  rw [if_neg (by simp [List.isEmpty_iff, hp])]

theorem activePlans_save (st : Store) (uid : Int) (profile : JObj)
    (plan : List Char) (now : Nat) (hp : profile ≠ []) :
    activePlans (save_new_plan_and_profile st uid profile plan now) uid =
      [⟨uid, plan, profile, now, none⟩] := by
  unfold activePlans
  rw [save_plan_history st uid profile plan now hp]
  rw [List.filter_append, activePlans_closeActive]
  simp

theorem closeActive_mem {ph : List PlanRecord} {r : PlanRecord} {uid : Int}
    (hr : r ∈ ph) (huid : r.user_id = uid) (hend : r.end_date = none) (now : Nat) :
    { r with end_date := some now } ∈ closeActive ph uid now := by
  unfold closeActive
  have hf : (fun r => if r.user_id == uid && r.end_date.isNone then
      { r with end_date := some now } else r) r = { r with end_date := some now } := by
    dsimp only
    rw [if_pos (by simp [huid, hend])]
  rw [← hf]
  exact List.mem_map_of_mem _ hr

theorem latestBy_isSome (a : PlanRecord) (rs : List PlanRecord) :
    ∃ r, latestBy (a :: rs) = some r := by
  simp only [latestBy]
  cases hlb : latestBy rs with
  | none => exact ⟨a, rfl⟩
  | some b => exact ⟨if b.start_date ≤ a.start_date then a else b, rfl⟩

theorem latestBy_spec :
    ∀ l : List PlanRecord, ∀ r, latestBy l = some r →
      r ∈ l ∧ ∀ x ∈ l, x.start_date ≤ r.start_date := by
  intro l
  induction l with
  | nil => intro r h; simp [latestBy] at h
  | cons a rs ih =>
    intro r h
    simp only [latestBy] at h
    cases hlb : latestBy rs with
    | none =>
      rw [hlb] at h
      injection h with h'
      subst h'
      refine ⟨List.mem_cons_self a rs, ?_⟩
      intro x hx
      rcases List.mem_cons.mp hx with hxa | hxs
      · rw [hxa]
      · cases rs with
        | nil => simp at hxs
        | cons b bs =>
          obtain ⟨r2, hr2⟩ := latestBy_isSome b bs
          rw [hr2] at hlb
          simp at hlb
    | some b =>
      rw [hlb] at h
      injection h with h'
      obtain ⟨hbmem, hbmax⟩ := ih b hlb
      by_cases hbs : b.start_date ≤ a.start_date
      · rw [if_pos hbs] at h'
        subst h'
        refine ⟨List.mem_cons_self a rs, ?_⟩
        intro x hx
        rcases List.mem_cons.mp hx with hxa | hxs
        · rw [hxa]
        · exact le_trans (hbmax x hxs) hbs
      · rw [if_neg hbs] at h'
        subst h'
        refine ⟨List.mem_cons_of_mem a hbmem, ?_⟩
        intro x hx
        rcases List.mem_cons.mp hx with hxa | hxs
        · rw [hxa]; omega
        · exact hbmax x hxs

theorem find?_map_set {α β : Type} [BEq α] [LawfulBEq α] :
    ∀ rows : List (α × β), ∀ k : α, ∀ v : β,
      rows.any (fun kv => kv.1 == k) = true →
      (rows.map (fun kv => if kv.1 == k then (k, v) else kv)).find?
        (fun kv => kv.1 == k) = some (k, v) := by
  intro rows
  induction rows with
  | nil => intro k v ha; simp at ha
  | cons r0 rs ih =>
    intro k v ha
    rw [List.map_cons]
    by_cases h0 : (r0.1 == k) = true
    · rw [if_pos h0, List.find?_cons_of_pos _ (by simp)]
    · rw [if_neg h0, List.find?_cons_of_neg _ (by simpa using h0)]
      apply ih
      rw [List.any_cons] at ha
      simp only [Bool.or_eq_true] at ha
      rcases ha with h | h
      · exact absurd h h0
      · exact h

theorem find?_upsert {α β : Type} [BEq α] [LawfulBEq α]
    (rows : List (α × β)) (k : α) (v : β) :
    ((if rows.any (fun kv => kv.1 == k) then
        rows.map (fun kv => if kv.1 == k then (k, v) else kv)
      else rows ++ [(k, v)]).find? (fun kv => kv.1 == k)) = some (k, v) := by
  by_cases ha : rows.any (fun kv => kv.1 == k) = true
  · rw [if_pos ha]
    exact find?_map_set rows k v ha
  · rw [if_neg ha]
    rw [List.find?_append]
    have h1 : rows.find? (fun kv => kv.1 == k) = none := by
      rw [List.find?_eq_none]
      intro x hx hpx
      apply ha
      rw [List.any_eq_true]
      exact ⟨x, hx, hpx⟩
    rw [h1]
    simp [List.find?]

theorem upsertUser_find (rows : List (Int × JObj)) (uid : Int) (p : JObj) :
    (upsertUser rows uid p).find? (fun row => row.1 == uid) = some (uid, p) := by
  unfold upsertUser
  exact find?_upsert rows uid p

theorem dictSet_lookup (o : JObj) (k : List Char) (v : JVal) :
    dictLookup (dictSet o k v) k = some v := by
  unfold dictLookup dictSet
  rw [find?_upsert o k v]
  rfl

theorem not_mem_of_contains_false {l : List Char} {c : Char}
    (h : l.contains c = false) : c ∉ l := by
  intro hm
  have h3 : l.contains c = true := List.elem_eq_true_of_mem hm
  rw [h3] at h
  simp at h

theorem infix_cons_elim {pat ys : List Char} {c : Char} (hp : pat ≠ [])
    (hc : c ∉ pat) (h : pat <:+: c :: ys) : pat <:+: ys := by
  rcases @infix_append_cons_split pat [] ys c hp hc (by simpa using h) with h1 | h2
  · exact absurd (List.infix_nil.mp h1) hp
  · exact h2

theorem hasSub_false_intro {pat l : List Char} (hp : pat ≠ [])
    (hn : ¬ pat <:+: l) : hasSub pat l = false := by
  cases h : hasSub pat l with
  | false => rfl
  | true => exact absurd ((hasSub_iff hp l).mp h) hn

/-- The regex result on a text whose first marker occurrence is followed
by whitespace and a brace block whose only closing brace is final. -/
theorem regex_user_json_exact (pre ws mid rest : List Char)
    (hpre : ¬ userMarker <:+: (pre ++ userMarker.dropLast))
    (hws : ∀ c ∈ ws, isPySpace c = true)
    (hmid : '\x7d' ∉ mid) :
    regex_user_json
        (pre ++ (userMarker ++ (ws ++ ('\x7b' :: (mid ++ '\x7d' :: rest))))) =
      some (userMarker ++ ws ++ ('\x7b' :: (mid ++ ['\x7d'])),
        '\x7b' :: (mid ++ ['\x7d'])) := by
  have hsplit := @splitFirstSub_exact userMarker (by decide) pre
    (ws ++ ('\x7b' :: (mid ++ '\x7d' :: rest))) hpre
  have hdw : (ws ++ ('\x7b' :: (mid ++ '\x7d' :: rest))).dropWhile isPySpace =
      '\x7b' :: (mid ++ '\x7d' :: rest) := by
    rw [List.dropWhile_append_of_pos hws]
    rw [List.dropWhile_cons, if_neg (by decide)]
  have htw : (ws ++ ('\x7b' :: (mid ++ '\x7d' :: rest))).takeWhile isPySpace = ws := by
    rw [List.takeWhile_append_of_pos hws]
    rw [List.takeWhile_cons, if_neg (by decide), List.append_nil]
  rw [regex_user_json_eq, hsplit]
  dsimp only
  rw [hdw]
  dsimp only
  rw [if_pos rfl]
  rw [if_pos (List.elem_eq_true_of_mem (by simp))]
  rw [takeThrough_append mid rest hmid, htw]

/-- Profile extraction succeeds and returns the parsed block on such a
text. -/
theorem extract_profile_json_exact (pre ws mid rest : List Char) (o : JObj)
    (hpre : ¬ userMarker <:+: (pre ++ userMarker.dropLast))
    (hws : ∀ c ∈ ws, isPySpace c = true)
    (hmid : '\x7d' ∉ mid)
    (hobj : json_loads ('\x7b' :: (mid ++ ['\x7d'])) = some o) :
    extract_profile_json
      (pre ++ (userMarker ++ (ws ++ ('\x7b' :: (mid ++ '\x7d' :: rest))))) = some o := by
  unfold extract_profile_json
  rw [regex_user_json_exact pre ws mid rest hpre hws hmid]
  exact hobj

/-- Head and last character of `body ++ '\n' :: z` are not whitespace when
`body` is non-empty and stripped and the last character of `'\n' :: z` is
not whitespace; hence `strip` is the identity there. -/
theorem strip_body_append {body z : List Char} {cz : Char}
    (hne : body ≠ []) (hs : strip body = body)
    (hz : ('\n' :: z).getLast? = some cz) (hcz : isPySpace cz = false) :
    strip (body ++ '\n' :: z) = body ++ '\n' :: z := by
  obtain ⟨hb, tb, hbody⟩ : ∃ hb tb, body = hb :: tb := by
    cases body with
    | nil => exact absurd rfl hne
    | cons h t => exact ⟨h, t, rfl⟩
  have hhb : isPySpace hb = false := head_not_ws_of_strip_eq hs hb tb hbody
  apply strip_eq_self_of
  · intro a t heq
    rw [hbody, List.cons_append] at heq
    injection heq with h1 _
    rw [← h1]
    exact hhb
  · intro a ha
    rw [List.getLast?_append_of_ne_nil _ (by simp)] at ha
    rw [hz] at ha
    injection ha with h1
    rw [← h1]
    exact hcz

/-- The plan text recovered from the spec's reply template: the markers,
profile block and the disclaimer-from-trigger-onward are removed, leaving
the body plus the `"\nPlease"` residue of the disclaimer sentence. -/
theorem extract_plan_text_template (p : JObj) (body : List Char)
    (hv : validProfile p = true)
    (hmp : ¬ userMarker <:+: body)
    (hep : ¬ endMarker <:+: body)
    (htp : ¬ trigger <:+: body.map lower)
    (hne : body ≠ [])
    (hs : strip body = body) :
    extract_plan_text (planTemplate p body) =
      body ++ '\n' :: "Please".data := by
  have hbrk : '\x7d' ∉ membersDump p :=
    fun hmem => ((mem_membersDump p hv '\x7d' hmem).1 rfl)
  have hbrk2 : '[' ∉ membersDump p :=
    fun hmem => ((mem_membersDump p hv '[' hmem).2 rfl)
  -- Step 1: removing the end marker.
  have hT1 : planTemplate p body =
      (userMarker ++ ' ' :: '\x7b' :: (membersDump p ++ '\x7d' ::
        '\n' :: (body ++ '\n' :: ("Please consult a doctor.".data ++ ['\n'])))) ++
        endMarker := by
    simp [planTemplate, jdumps, List.append_assoc]
  have hnE : ¬ endMarker <:+:
      (userMarker ++ ' ' :: '\x7b' :: (membersDump p ++ '\x7d' ::
        '\n' :: (body ++ '\n' :: ("Please consult a doctor.".data ++ ['\n']))) ++
        endMarker.dropLast) := by
    intro hE
    rw [show (userMarker ++ ' ' :: '\x7b' :: (membersDump p ++ '\x7d' ::
        '\n' :: (body ++ '\n' :: ("Please consult a doctor.".data ++ ['\n']))) ++
        endMarker.dropLast) =
      userMarker ++ ' ' :: ('\x7b' :: (membersDump p ++ '\x7d' ::
        ('\n' :: (body ++ '\n' :: ("Please consult a doctor.".data ++
          '\n' :: endMarker.dropLast))))) by simp [List.append_assoc]] at hE
    rcases infix_append_cons_split (by decide) (by decide) hE with h1 | h2
    · exact absurd h1 (by decide)
    have h3 := infix_cons_elim (by decide) (by decide) h2
    rcases infix_append_cons_split (by decide) (by decide) h3 with h4 | h5
    · exact hbrk2 (h4.sublist.subset (by decide))
    have h6 := infix_cons_elim (by decide) (by decide) h5
    rcases infix_append_cons_split (by decide) (by decide) h6 with h7 | h8
    · exact hep h7
    · exact absurd h8 (by decide)
  have hstep1 : replaceAll endMarker [] (planTemplate p body) =
      userMarker ++ ' ' :: '\x7b' :: (membersDump p ++ '\x7d' ::
        '\n' :: (body ++ '\n' :: ("Please consult a doctor.".data ++ ['\n']))) := by
    rw [hT1]
    exact replaceAll_append_end (by decide) _ hnE
  -- Step 1b: the strip after marker removal.
  have hA'last : (userMarker ++ ' ' :: '\x7b' :: (membersDump p ++ '\x7d' ::
      '\n' :: (body ++ '\n' :: "Please consult a doctor.".data))).getLast? =
      some '.' := by
    rw [show userMarker ++ ' ' :: '\x7b' :: (membersDump p ++ '\x7d' ::
        '\n' :: (body ++ '\n' :: "Please consult a doctor.".data)) =
      (userMarker ++ ' ' :: '\x7b' :: (membersDump p ++ '\x7d' ::
        '\n' :: (body ++ ['\n']))) ++ "Please consult a doctor.".data
      by simp [List.append_assoc]]
    rw [List.getLast?_append_of_ne_nil _ (by decide)]
    decide
  have hstrip1 : strip (replaceAll endMarker [] (planTemplate p body)) =
      userMarker ++ ' ' :: '\x7b' :: (membersDump p ++ '\x7d' ::
        '\n' :: (body ++ '\n' :: "Please consult a doctor.".data)) := by
    rw [hstep1]
    rw [show userMarker ++ ' ' :: '\x7b' :: (membersDump p ++ '\x7d' ::
        '\n' :: (body ++ '\n' :: ("Please consult a doctor.".data ++ ['\n']))) =
      (userMarker ++ ' ' :: '\x7b' :: (membersDump p ++ '\x7d' ::
        '\n' :: (body ++ '\n' :: "Please consult a doctor.".data))) ++ ['\n']
      by simp [List.append_assoc]]
    rw [strip_append_ws (by decide)]
    apply strip_eq_self_of
    · intro a t heq
      rw [show userMarker = '[' :: "USER_DATA_JSON]".data by decide,
        List.cons_append] at heq
      injection heq with h1 _
      rw [← h1]
      decide
    · intro a ha
      rw [hA'last] at ha
      injection ha with h1
      rw [← h1]
      decide
  -- Step 2: the regex match and the removal of group(0).
  have hregex : regex_user_json (userMarker ++ ' ' :: '\x7b' ::
      (membersDump p ++ '\x7d' :: '\n' :: (body ++ '\n' ::
        "Please consult a doctor.".data))) =
      some (userMarker ++ [' '] ++ ('\x7b' :: (membersDump p ++ ['\x7d'])),
        '\x7b' :: (membersDump p ++ ['\x7d'])) := by
    rw [show userMarker ++ ' ' :: '\x7b' :: (membersDump p ++ '\x7d' ::
        '\n' :: (body ++ '\n' :: "Please consult a doctor.".data)) =
      [] ++ (userMarker ++ ([' '] ++ ('\x7b' :: (membersDump p ++ '\x7d' ::
        ('\n' :: (body ++ '\n' :: "Please consult a doctor.".data))))))
      by simp [List.append_assoc]]
    exact regex_user_json_exact [] [' '] (membersDump p) _
      (by decide) (by decide) hbrk
  have hg0ne : userMarker ++ [' '] ++ ('\x7b' :: (membersDump p ++ ['\x7d'])) ≠ [] := by
    intro hcon
    have := congrArg List.length hcon
    simp [userMarker] at this
  have hnM : ¬ userMarker <:+:
      ('\n' :: (body ++ '\n' :: "Please consult a doctor.".data)) := by
    intro hM
    have h2 := infix_cons_elim (by decide) (by decide) hM
    rcases infix_append_cons_split (by decide) (by decide) h2 with h3 | h4
    · exact hmp h3
    · exact absurd h4 (by decide)
  have hstep2 : replaceAll (userMarker ++ [' '] ++ ('\x7b' :: (membersDump p ++ ['\x7d'])))
      [] (userMarker ++ ' ' :: '\x7b' :: (membersDump p ++ '\x7d' ::
        '\n' :: (body ++ '\n' :: "Please consult a doctor.".data))) =
      '\n' :: (body ++ '\n' :: "Please consult a doctor.".data) := by
    rw [show userMarker ++ ' ' :: '\x7b' :: (membersDump p ++ '\x7d' ::
        '\n' :: (body ++ '\n' :: "Please consult a doctor.".data)) =
      (userMarker ++ [' '] ++ ('\x7b' :: (membersDump p ++ ['\x7d']))) ++
        ('\n' :: (body ++ '\n' :: "Please consult a doctor.".data))
      by simp [List.append_assoc]]
    rw [replaceAll_at_head hg0ne]
    have hnocc : ¬ (userMarker ++ [' '] ++ ('\x7b' :: (membersDump p ++ ['\x7d']))) <:+:
        ('\n' :: (body ++ '\n' :: "Please consult a doctor.".data)) := by
      intro hg
      apply hnM
      have hpref : userMarker <+:
          userMarker ++ ([' '] ++ ('\x7b' :: (membersDump p ++ ['\x7d']))) :=
        List.prefix_append _ _
      exact hpref.isInfix.trans (by rwa [List.append_assoc] at hg)
    rw [replaceAll_no_occ _ hnocc]
    exact List.nil_append _
  have hstrip2 : strip ('\n' :: (body ++ '\n' :: "Please consult a doctor.".data)) =
      body ++ '\n' :: "Please consult a doctor.".data := by
    rw [strip_cons_ws (by decide)]
    exact @strip_body_append body ("Please consult a doctor.".data) '.' hne hs
      (by decide) (by decide)
  -- Step 3: the disclaimer removal.
  have hfind : findCI trigger (body ++ '\n' :: "Please consult a doctor.".data) =
      some "consult a doctor.".data := by
    rw [findCI_append_skip (by decide) body _ htp]
    decide
  have hnG : ¬ "consult a doctor.".data <:+:
      ((body ++ '\n' :: "Please ".data) ++ ("consult a doctor.".data).dropLast) := by
    intro hG
    have e1 : ("consult a doctor.".data).dropLast = "consult a doctor".data := by decide
    have e2 : "Please consult a doctor".data =
        "Please ".data ++ "consult a doctor".data := by decide
    have hsh1 : ((body ++ '\n' :: "Please ".data) ++ ("consult a doctor.".data).dropLast) =
        body ++ '\n' :: ("Please consult a doctor".data) := by
      rw [e1, e2]
      simp [List.append_assoc]
    rw [hsh1] at hG
    rcases infix_append_cons_split (by decide) (by decide) hG with h1 | h2
    · have h3 : trigger <:+: body := (by decide : trigger <:+: "consult a doctor.".data).trans h1
      have h4 := h3.map lower
      rw [show trigger.map lower = trigger by decide] at h4
      exact htp h4
    · exact absurd h2 (by decide)
  have hstep3 : replaceAll "consult a doctor.".data []
      (body ++ '\n' :: "Please consult a doctor.".data) =
      body ++ '\n' :: "Please ".data := by
    have e3 : "Please consult a doctor.".data =
        "Please ".data ++ "consult a doctor.".data := by decide
    have hsh3 : body ++ '\n' :: "Please consult a doctor.".data =
        (body ++ '\n' :: "Please ".data) ++ "consult a doctor.".data := by
      rw [e3]
      simp [List.append_assoc]
    rw [hsh3]
    exact replaceAll_append_end (by decide) _ hnG
  have hstrip3 : strip (body ++ '\n' :: "Please ".data) =
      body ++ '\n' :: "Please".data := by
    have e4 : "Please ".data = "Please".data ++ [' '] := by decide
    have hsh4 : body ++ '\n' :: "Please ".data =
        (body ++ '\n' :: "Please".data) ++ [' '] := by
      rw [e4]
      simp [List.append_assoc]
    rw [hsh4]
    rw [strip_append_ws (by decide)]
    exact @strip_body_append body ("Please".data) 'e' hne hs (by decide) (by decide)
  -- Assemble.
  obtain ⟨hb, tb, hbody⟩ : ∃ hb tb, body = hb :: tb := by
    cases body with
    | nil => exact absurd rfl hne
    | cons h t => exact ⟨h, t, rfl⟩
  simp only [extract_plan_text]
  rw [hstrip1, hregex]
  dsimp only
  rw [hstep2, hstrip2, hfind]
  dsimp only
  rw [hstep3, hstrip3]
  rw [if_neg (by rw [hbody]; simp)]
  rw [@strip_body_append body ("Please".data) 'e' hne hs (by decide) (by decide)]

/-! Claim theorems. -/

theorem handler_store_on_commit (st : Store) (uid : Int) (ai : List Char)
    (now : Nat) (p : JObj) (hm : hasSub endMarker ai = true)
    (hx : extract_profile_json ai = some p) (hp : p ≠ []) :
    (on_ai_message st uid ai now).1 =
      save_new_plan_and_profile (log_conversation st uid "ai".data ai) uid p
        (extract_plan_text ai) now := by
  unfold on_ai_message handle_ai_reply
  rw [hm, if_pos rfl, hx]
  dsimp only
  rw [if_neg (by simp [List.isEmpty_iff, hp])]

/-- C1: for a commit triggered by a model reply containing the completion
marker and a well-formed (non-empty) profile block, afterwards exactly one
plan record of the user has a null end date — the new record, whose
profile snapshot is the parsed profile JSON and whose start date is the
commit timestamp — and every previously active record is closed with end
date equal to that same timestamp. -/
theorem commit_single_active_C1 (st : Store) (uid : Int) (ai : List Char)
    (now : Nat) (p : JObj) (hm : hasSub endMarker ai = true)
    (hx : extract_profile_json ai = some p) (hp : p ≠ []) :
    activePlans (on_ai_message st uid ai now).1 uid =
        [⟨uid, extract_plan_text ai, p, now, none⟩] ∧
      ∀ r ∈ st.plan_history, r.user_id = uid → r.end_date = none →
        { r with end_date := some now } ∈ (on_ai_message st uid ai now).1.plan_history := by
  have hstore := handler_store_on_commit st uid ai now p hm hx hp
  constructor
  · rw [hstore]
    exact activePlans_save _ uid p (extract_plan_text ai) now hp
  · intro r hr huid hend
    rw [hstore, save_plan_history _ _ _ _ _ hp]
    apply List.mem_append_left
    exact closeActive_mem hr huid hend now

theorem commit_single_active_C1_witness :
    activePlans (on_ai_message sampleStore 3 sampleReplyFull 7).1 3 =
        [⟨3, extract_plan_text sampleReplyFull, sampleProfile, 7, none⟩] ∧
      (⟨3, "old plan".data, [], 0, some 7⟩ : PlanRecord) ∈
        (on_ai_message sampleStore 3 sampleReplyFull 7).1.plan_history :=
  ⟨(commit_single_active_C1 sampleStore 3 sampleReplyFull 7 sampleProfile
      (by decide) (by decide) (by decide)).1,
    (commit_single_active_C1 sampleStore 3 sampleReplyFull 7 sampleProfile
      (by decide) (by decide) (by decide)).2
      ⟨3, "old plan".data, [], 0, none⟩ (by decide) rfl rfl⟩

/-- C2: for a model reply without the completion marker the handler
performs no profile upsert, no plan close and no plan insert — the users
and plan_history collections are unchanged — regardless of whether the
reply textually contains a profile-shaped block. -/
theorem no_marker_no_persistence_C2 (st : Store) (uid : Int) (ai : List Char)
    (now : Nat) (h : hasSub endMarker ai = false) :
    (on_ai_message st uid ai now).1.users = st.users ∧
      (on_ai_message st uid ai now).1.plan_history = st.plan_history := by
  unfold on_ai_message handle_ai_reply
  rw [h]
  rw [if_neg (by simp)]
  exact ⟨rfl, rfl⟩

theorem no_marker_no_persistence_C2_witness :
    (on_ai_message sampleStore 3 sampleReplyNoMarker 5).1.users = sampleStore.users ∧
      (on_ai_message sampleStore 3 sampleReplyNoMarker 5).1.plan_history =
        sampleStore.plan_history :=
  no_marker_no_persistence_C2 sampleStore 3 sampleReplyNoMarker 5 (by decide)

/-- C5: committing twice in sequence with identical `(id, profile, plan)`
leaves exactly one active plan afterwards — the record of the second call —
and the record created by the first call is closed with the second call's
timestamp; no duplicate actives exist. -/
theorem commit_twice_single_active_C5 (st : Store) (uid : Int) (profile : JObj)
    (plan : List Char) (now1 now2 : Nat) (hp : profile ≠ []) :
    activePlans (save_new_plan_and_profile
        (save_new_plan_and_profile st uid profile plan now1) uid profile plan now2) uid =
      [⟨uid, plan, profile, now2, none⟩] ∧
    (⟨uid, plan, profile, now1, some now2⟩ : PlanRecord) ∈
      (save_new_plan_and_profile
        (save_new_plan_and_profile st uid profile plan now1) uid profile plan
        now2).plan_history := by
  constructor
  · exact activePlans_save _ uid profile plan now2 hp
  · rw [save_plan_history _ _ _ _ _ hp]
    apply List.mem_append_left
    have hmem : (⟨uid, plan, profile, now1, none⟩ : PlanRecord) ∈
        (save_new_plan_and_profile st uid profile plan now1).plan_history := by
      rw [save_plan_history _ _ _ _ _ hp]
      exact List.mem_append_right _ (List.mem_cons_self _ _)
    exact closeActive_mem hmem rfl rfl now2

theorem commit_twice_single_active_C5_witness :
    activePlans (save_new_plan_and_profile
        (save_new_plan_and_profile sampleStore 3 sampleProfile "plan A".data 7) 3
        sampleProfile "plan A".data 9) 3 =
      [⟨3, "plan A".data, sampleProfile, 9, none⟩] ∧
    (⟨3, "plan A".data, sampleProfile, 7, some 9⟩ : PlanRecord) ∈
      (save_new_plan_and_profile
        (save_new_plan_and_profile sampleStore 3 sampleProfile "plan A".data 7) 3
        sampleProfile "plan A".data 9).plan_history :=
  commit_twice_single_active_C5 sampleStore 3 sampleProfile "plan A".data 7 9 (by decide)

/-- C6 counterexample: for the reply `"hi [END_OF_PLAN]"` (marker present,
no profile block) the handler replies `"hi"`, which is not the raw text
with only the completion marker removed — that would be `"hi "` — because
the code additionally strips surrounding whitespace. -/
theorem marker_without_profile_counterexample_C6 :
    hasSub endMarker sampleReplyNoJson = true ∧
      extract_profile_json sampleReplyNoJson = none ∧
      (on_ai_message ⟨[], [], []⟩ 1 sampleReplyNoJson 0).2 ≠
        replaceAll endMarker [] sampleReplyNoJson := by decide

/-- C6 amended: for a model reply containing the completion marker whose
profile block is absent or fails to parse, the handler persists nothing
(users and plan_history unchanged) and replies with the raw reply text
with the completion marker removed and surrounding whitespace stripped. -/
theorem marker_without_profile_C6 (st : Store) (uid : Int) (ai : List Char)
    (now : Nat) (hm : hasSub endMarker ai = true)
    (hx : extract_profile_json ai = none) :
    (on_ai_message st uid ai now).1.users = st.users ∧
      (on_ai_message st uid ai now).1.plan_history = st.plan_history ∧
      (on_ai_message st uid ai now).2 = strip (replaceAll endMarker [] ai) := by
  unfold on_ai_message handle_ai_reply
  rw [hm, if_pos rfl, hx]
  exact ⟨rfl, rfl, rfl⟩

theorem marker_without_profile_C6_witness :
    (on_ai_message ⟨[], [], []⟩ 1 sampleReplyNoJson 0).1.users = [] ∧
      (on_ai_message ⟨[], [], []⟩ 1 sampleReplyNoJson 0).1.plan_history = [] ∧
      (on_ai_message ⟨[], [], []⟩ 1 sampleReplyNoJson 0).2 =
        strip (replaceAll endMarker [] sampleReplyNoJson) :=
  marker_without_profile_C6 ⟨[], [], []⟩ 1 sampleReplyNoJson 0 (by decide) (by decide)

/-- C7: when the store holds more than one plan record with a null end
date for a user, the active-plan lookup performed during profile load
returns a record of maximal start date: `latestBy` picks a member of the
active set that every active record's start date is bounded by, and
`load_profile` returns that record's plan text alongside the found user
row. -/
theorem active_lookup_latest_C7 (st : Store) (uid : Int) (r : PlanRecord)
    (row : Int × JObj) (hlen : 1 < (activePlans st uid).length)
    (hr : latestBy (activePlans st uid) = some r)
    (hrow : st.users.find? (fun u => u.1 == uid) = some row) :
    r ∈ activePlans st uid ∧
      (∀ x ∈ activePlans st uid, x.start_date ≤ r.start_date) ∧
      load_profile st uid = some (row.2, r.plan_text) := by
  obtain ⟨hmem, hmax⟩ := latestBy_spec _ r hr
  refine ⟨hmem, hmax, ?_⟩
  unfold load_profile
  rw [hrow]
  dsimp only
  rw [hr]

theorem active_lookup_latest_C7_witness :
    (⟨3, "newer".data, [], 5, none⟩ : PlanRecord) ∈ activePlans sampleStoreTwoActive 3 ∧
      load_profile sampleStoreTwoActive 3 =
        some ([("name".data, JVal.jstr "Sam".data)], "newer".data) :=
  ⟨(active_lookup_latest_C7 sampleStoreTwoActive 3 ⟨3, "newer".data, [], 5, none⟩
      (3, [("name".data, JVal.jstr "Sam".data)]) (by decide) (by decide) (by decide)).1,
    (active_lookup_latest_C7 sampleStoreTwoActive 3 ⟨3, "newer".data, [], 5, none⟩
      (3, [("name".data, JVal.jstr "Sam".data)]) (by decide) (by decide) (by decide)).2.2⟩

/-- C8 counterexample: the profile block `\x7b\x7d` (the empty JSON
object) is syntactically valid and parses, yet with the completion marker
present the handler persists nothing: the empty dict is falsy in Python,
so it is rejected rather than accepted and stored. -/
theorem schema_laxity_counterexample_C8 :
    extract_profile_json sampleReplyEmptyObj = some [] ∧
      (on_ai_message ⟨[], [], []⟩ 1 sampleReplyEmptyObj 5).1.users = [] ∧
      (on_ai_message ⟨[], [], []⟩ 1 sampleReplyEmptyObj 5).1.plan_history = [] := by
  decide

/-- C8 amended: with the completion marker present, any *non-empty* JSON
object parsed from the profile block is accepted and stored as-is by the
persistence pipeline — the snapshot equals the parsed object, no
field-level validation happens, no keys are defaulted, and acceptance does
not depend on which keys the object contains; only the empty object is
rejected by the handler's truthiness check. -/
theorem schema_laxity_amended_C8 (st : Store) (uid : Int) (ai : List Char)
    (now : Nat) (p : JObj) (hm : hasSub endMarker ai = true)
    (hx : extract_profile_json ai = some p) (hp : p ≠ []) :
    (on_ai_message st uid ai now).1.plan_history =
        closeActive st.plan_history uid now ++
          [⟨uid, extract_plan_text ai, p, now, none⟩] ∧
      (on_ai_message st uid ai now).1.users.find? (fun row => row.1 == uid) =
        some (uid, dictSet p userIdKey (.jnum (intChars uid))) := by
  have hstore := handler_store_on_commit st uid ai now p hm hx hp
  constructor
  · rw [hstore, save_plan_history _ _ _ _ _ hp]
    exact rfl
  · rw [hstore, save_users _ _ _ _ _ hp]
    exact upsertUser_find _ uid _

theorem schema_laxity_amended_C8_witness :
    (on_ai_message sampleStore 3 sampleReplyFull 7).1.plan_history =
        closeActive sampleStore.plan_history 3 7 ++
          [⟨3, extract_plan_text sampleReplyFull, sampleProfile, 7, none⟩] ∧
      (on_ai_message sampleStore 3 sampleReplyFull 7).1.users.find?
          (fun row => row.1 == 3) =
        some (3, dictSet sampleProfile userIdKey (.jnum (intChars 3))) :=
  schema_laxity_amended_C8 sampleStore 3 sampleReplyFull 7 sampleProfile
    (by decide) (by decide) (by decide)

/-- C9: the reset command clears the in-memory session handle of the
invoking user only — other users' handles are intact — and performs no
read or write on the structured store: the store component of the state is
unchanged. -/
theorem reset_frame_C9 (s : SysState) (uid u : Int) (h : u ≠ uid) :
    (reset_chat s uid).store = s.store ∧
      (reset_chat s uid).sessions uid = none ∧
      (reset_chat s uid).sessions u = s.sessions u := by
  refine ⟨rfl, ?_, ?_⟩
  · unfold reset_chat
    simp
  · unfold reset_chat
    simp [h]

theorem reset_frame_C9_witness :
    (reset_chat ⟨sampleStore, fun _ => some 1⟩ 7).store = sampleStore ∧
      (reset_chat ⟨sampleStore, fun _ => some 1⟩ 7).sessions 7 = none ∧
      (reset_chat ⟨sampleStore, fun _ => some 1⟩ 7).sessions 5 = some 1 :=
  reset_frame_C9 ⟨sampleStore, fun _ => some 1⟩ 7 5 (by decide)

/-- C10: with a non-empty profile, the users row upserted by
`save_new_plan_and_profile` equals the profile with the `user_id` key set
to the caller-supplied id (overriding any `user_id` the model-provided
profile contains), while the plan record's snapshot is the original
profile without the injected id — the caller's profile value is used
unchanged. -/
theorem upsert_row_injection_C10 (st : Store) (uid : Int) (profile : JObj)
    (plan : List Char) (now : Nat) (hp : profile ≠ []) :
    (save_new_plan_and_profile st uid profile plan now).users.find?
        (fun row => row.1 == uid) =
      some (uid, dictSet profile userIdKey (.jnum (intChars uid))) ∧
    dictLookup (dictSet profile userIdKey (.jnum (intChars uid))) userIdKey =
      some (.jnum (intChars uid)) ∧
    (save_new_plan_and_profile st uid profile plan now).plan_history =
      closeActive st.plan_history uid now ++ [⟨uid, plan, profile, now, none⟩] := by
  refine ⟨?_, dictSet_lookup profile userIdKey _,
    save_plan_history st uid profile plan now hp⟩
  rw [save_users st uid profile plan now hp]
  exact upsertUser_find st.users uid _

theorem upsert_row_injection_C10_witness :
    (save_new_plan_and_profile sampleStore 7 sampleProfileWithId "plan B".data 4).users.find?
        (fun row => row.1 == 7) =
      some (7, dictSet sampleProfileWithId userIdKey (.jnum (intChars 7))) ∧
    dictLookup (dictSet sampleProfileWithId userIdKey (.jnum (intChars 7))) userIdKey =
      some (.jnum (intChars 7)) ∧
    (save_new_plan_and_profile sampleStore 7 sampleProfileWithId "plan B".data 4).plan_history =
      closeActive sampleStore.plan_history 7 4 ++
        [⟨7, "plan B".data, sampleProfileWithId, 4, none⟩] :=
  upsert_row_injection_C10 sampleStore 7 sampleProfileWithId "plan B".data 4 (by decide)

/-- C4 counterexample: in `sampleReplyBraceInString` the marker is
followed (after a single space) by the syntactically valid JSON object
text `sampleBraceObjText`, which parses to an object with one
brace-containing string value; yet `extract_profile_json` returns none,
because the lazy regex capture stops at the first closing brace and the
truncated capture fails to parse. -/
theorem profile_extract_counterexample_C4 :
    json_loads sampleBraceObjText = some [("a".data, JVal.jstr "x\x7dy".data)] ∧
      sampleReplyBraceInString = userMarker ++ ' ' :: sampleBraceObjText ∧
      extract_profile_json sampleReplyBraceInString = none := by decide

/-- C4 amended: (a) when the first marker occurrence is followed by
optional whitespace and a brace-delimited block whose only closing brace
is its final character, and that block parses as a JSON object, then
`extract_profile_json` returns exactly that object parsed; (b) whenever
the regex matches but its capture fails to parse as a JSON object, the
result is none — the parse failure is recovered, not fatal. -/
theorem profile_extract_amended_C4 :
    (∀ pre ws mid rest : List Char, ∀ o : JObj,
        hasSub userMarker (pre ++ userMarker.dropLast) = false →
        ws.all isPySpace = true →
        mid.contains '\x7d' = false →
        json_loads ('\x7b' :: (mid ++ ['\x7d'])) = some o →
        extract_profile_json
          (pre ++ (userMarker ++ (ws ++ ('\x7b' :: (mid ++ '\x7d' :: rest))))) = some o) ∧
    (∀ text g0 g1 : List Char, regex_user_json text = some (g0, g1) →
        json_loads g1 = none → extract_profile_json text = none) := by
  constructor
  · intro pre ws mid rest o hpre hws hmid hobj
    exact extract_profile_json_exact pre ws mid rest o
      (hasSub_false (by decide) _ hpre)
      (by simpa [List.all_eq_true] using hws)
      (not_mem_of_contains_false hmid) hobj
  · intro text g0 g1 hre hjl
    unfold extract_profile_json
    rw [hre]
    dsimp only
    exact hjl

theorem profile_extract_amended_C4_witness :
    extract_profile_json
        ([] ++ (userMarker ++ ([' '] ++ ('\x7b' :: ("\"k\": 2".data ++ '\x7d' :: " tail".data))))) =
        some [("k".data, JVal.jnum "2".data)] ∧
      extract_profile_json "[USER_DATA_JSON] \x7bbad\x7d".data = none :=
  ⟨profile_extract_amended_C4.1 [] [' '] "\"k\": 2".data " tail".data
      [("k".data, JVal.jnum "2".data)] (by decide) (by decide) (by decide) (by decide),
    profile_extract_amended_C4.2 "[USER_DATA_JSON] \x7bbad\x7d".data
      "[USER_DATA_JSON] \x7bbad\x7d".data "\x7bbad\x7d".data (by decide) (by decide)⟩

/-- C3 counterexample: on the template built from the profile
`sampleProfileNum` and the body `"1. run"`, the profile round-trips
exactly, but the recovered plan text is `"1. run\nPlease"` — the
disclaimer-removal regex `consult a doctor.*` leaves the `"\nPlease"`
residue of the disclaimer sentence — so it is not exactly the body. -/
theorem roundtrip_counterexample_C3 :
    extract_profile_json (planTemplate sampleProfileNum "1. run".data) =
      some sampleProfileNum ∧
    extract_plan_text (planTemplate sampleProfileNum "1. run".data) =
      "1. run".data ++ '\n' :: "Please".data ∧
    extract_plan_text (planTemplate sampleProfileNum "1. run".data) ≠
      "1. run".data := by decide

/-- C3 amended: for every profile with plain string/number values and
every non-empty, already-stripped body free of the two markers and of the
case-insensitive trigger phrase, parsing the reply template recovers the
profile exactly, and recovers the body followed by the residue
`"\nPlease"`; the recovered plan text contains neither marker nor the
full disclaimer sentence. -/
theorem roundtrip_amended_C3 (p : JObj) (body : List Char)
    (hv : validProfile p = true)
    (hmp : ¬ userMarker <:+: body)
    (hep : ¬ endMarker <:+: body)
    (htp : ¬ trigger <:+: body.map lower)
    (hne : body ≠ [])
    (hs : strip body = body) :
    extract_profile_json (planTemplate p body) = some p ∧
    extract_plan_text (planTemplate p body) = body ++ '\n' :: "Please".data ∧
    ¬ userMarker <:+: extract_plan_text (planTemplate p body) ∧
    ¬ endMarker <:+: extract_plan_text (planTemplate p body) ∧
    ¬ "Please consult a doctor.".data <:+: extract_plan_text (planTemplate p body) := by
  have hbrk : '\x7d' ∉ membersDump p :=
    fun hmem => ((mem_membersDump p hv '\x7d' hmem).1 rfl)
  have hplan := extract_plan_text_template p body hv hmp hep htp hne hs
  have hobj : json_loads ('\x7b' :: (membersDump p ++ ['\x7d'])) = some p := by
    have h0 := json_loads_jdumps hv
    unfold jdumps at h0
    rw [List.cons_append] at h0
    exact h0
  have hshape : planTemplate p body =
      [] ++ (userMarker ++ ([' '] ++ ('\x7b' :: (membersDump p ++ '\x7d' ::
        ('\n' :: (body ++ '\n' :: ("Please consult a doctor.".data ++
          '\n' :: endMarker))))))) := by
    simp [planTemplate, jdumps, List.append_assoc]
  refine ⟨?_, hplan, ?_, ?_, ?_⟩
  · rw [hshape]
    exact extract_profile_json_exact [] [' '] (membersDump p) _ p
      (by decide) (by decide) hbrk hobj
  · rw [hplan]
    intro hM
    rcases infix_append_cons_split (by decide) (by decide) hM with h1 | h2
    · exact hmp h1
    · exact absurd h2 (by decide)
  · rw [hplan]
    intro hE
    rcases infix_append_cons_split (by decide) (by decide) hE with h1 | h2
    · exact hep h1
    · exact absurd h2 (by decide)
  · rw [hplan]
    intro hD
    rcases infix_append_cons_split (by decide) (by decide) hD with h1 | h2
    · have h3 : trigger <:+: body.map lower :=
        ((by decide : trigger <:+:
          ("Please consult a doctor.".data).map lower)).trans (h1.map lower)
      exact htp h3
    · exact absurd h2 (by decide)

theorem roundtrip_amended_C3_witness :
    (validProfile sampleProfileNum = true ∧
      strip "1. run".data = "1. run".data) ∧
    (extract_profile_json (planTemplate sampleProfileNum "1. run".data) =
        some sampleProfileNum ∧
      extract_plan_text (planTemplate sampleProfileNum "1. run".data) =
        "1. run".data ++ '\n' :: "Please".data ∧
      ¬ userMarker <:+: extract_plan_text (planTemplate sampleProfileNum "1. run".data) ∧
      ¬ endMarker <:+: extract_plan_text (planTemplate sampleProfileNum "1. run".data) ∧
      ¬ "Please consult a doctor.".data <:+:
          extract_plan_text (planTemplate sampleProfileNum "1. run".data)) :=
  ⟨⟨by decide, by decide⟩,
    roundtrip_amended_C3 sampleProfileNum "1. run".data (by decide) (by decide)
      (by decide) (by decide) (by decide) (by decide)⟩

end Fouserbot
